import Mathlib

/-!
# Verification of the minesweeper board generation and codec engine

Shallow embedding of `src/server/internals/datatypes/board.py` (and the
`Cell` datatype from `cell.py`).  Python strings are modelled as `List Char`,
Python `int` as `Int` (widths, heights, indices), Python `float` values used
by the random decision as `ℚ` (the claims only exercise the exact values
`0.0` and `1.0`, on which rational and floating comparison agree), and
Python exceptions as `Except String`.

The helpers `pyIntParse`, `pyBinDrop2` and `pyHexDrop2` model the CPython
primitives `int(s, base)`, `bin(v)[2:]` and `hex(v)[2:]` for the ASCII
strings the claims are about: `int(s, base)` accepts optional surrounding
ASCII whitespace, an optional sign, an optional `0x`/`0b` style base prefix,
and digits separated by single underscores.
-/

namespace Minesweeper

/-! ## Python numeric-string primitives -/

/-- Little-endian base-`b` digits of `n` (empty for `n = 0` or `b ≤ 1`). -/
def natDigits (b : Nat) (n : Nat) : List Nat :=
  if h : 2 ≤ b ∧ 0 < n then
    have _ : n / b < n := Nat.div_lt_self h.2 (by omega)
    (n % b) :: natDigits b (n / b)
  else []
termination_by n

/-- The digit string Python renders for a nonnegative integer in base `b`:
`bin(n)[2:]` / `hex(n)[2:]` (so `"0"` for zero, no prefix, lowercase). -/
def pyDigits (b : Nat) (n : Nat) : List Char :=
  if n = 0 then ['0'] else (natDigits b n).reverse.map Nat.digitChar

/-- `bin(v)[2:]` for a Python int `v`: for negative `v`, `bin(v)` is
`"-0b…"`, so dropping two characters leaves `"b…"`. -/
def pyBinDrop2 (v : Int) : List Char :=
  if 0 ≤ v then pyDigits 2 v.toNat else 'b' :: pyDigits 2 (-v).toNat

/-- `hex(v)[2:]` for a Python int `v` (negative case as for `pyBinDrop2`). -/
def pyHexDrop2 (v : Int) : List Char :=
  if 0 ≤ v then pyDigits 16 v.toNat else 'x' :: pyDigits 16 (-v).toNat

/-- Value of an ASCII digit character in base `b` (`none` when the
character is no digit or its value is ≥ `b`), as accepted by `int(s, b)`. -/
def digitVal? (b : Nat) (c : Char) : Option Nat :=
  let v : Nat :=
    if '0' ≤ c ∧ c ≤ '9' then c.toNat - '0'.toNat
    else if 'a' ≤ c ∧ c ≤ 'f' then c.toNat - 'a'.toNat + 10
    else if 'A' ≤ c ∧ c ≤ 'F' then c.toNat - 'A'.toNat + 10
    else 99
  if v < b then some v else none

/-- ASCII whitespace stripped by `int(s, base)`. -/
def isPyWs (c : Char) : Bool :=
  c = ' ' ∨ c = '\t' ∨ c = '\n' ∨ c = '\r' ∨ c = '\x0b' ∨ c = '\x0c'

/-- Digit sequence after the first digit: single underscores are allowed
between digits, as in Python numeric literals. `acc` is the value read so
far. -/
def parseDigitsRest (b acc : Nat) : List Char → Option Nat
  | [] => some acc
  | c :: cs =>
    if c = '_' then
      if cs = [] then none
      else (digitVal? b (cs.headD ' ')).bind fun d => parseDigitsRest b (acc * b + d) cs.tail
    else (digitVal? b c).bind fun d => parseDigitsRest b (acc * b + d) cs
termination_by l => l.length
decreasing_by
  · simp [List.length_tail]; omega
  · simp

/-- A nonempty digit sequence (may not start with an underscore). -/
def parseDigitsStart (b : Nat) (cs : List Char) : Option Nat :=
  if cs = [] then none
  else (digitVal? b (cs.headD ' ')).bind fun d => parseDigitsRest b d cs.tail

/-- Base-prefix letters `int(s, b)` accepts after a leading `0`. -/
def basePrefixChars (b : Nat) : List Char :=
  if b = 16 then ['x', 'X'] else if b = 2 then ['b', 'B']
  else if b = 8 then ['o', 'O'] else []

/-- The part of `int(s, b)` after whitespace and sign: an optional base
prefix (with an optional single underscore after it) and the digits. -/
def parseAfterSign (b : Nat) (cs : List Char) : Option Nat :=
  if 2 ≤ cs.length ∧ cs.headD ' ' = '0' ∧ cs.tail.headD ' ' ∈ basePrefixChars b then
    let rest := cs.tail.tail
    if rest.headD ' ' = '_' ∧ rest ≠ [] then parseDigitsStart b rest.tail
    else parseDigitsStart b rest
  else parseDigitsStart b cs

/-- Model of CPython `int(s, b)` on ASCII strings: `none` when the call
raises `ValueError`. -/
def pyIntParse (b : Nat) (s : List Char) : Option Int :=
  let s2 := ((s.dropWhile isPyWs).reverse.dropWhile isPyWs).reverse
  if s2 = [] then none
  else if s2.headD ' ' = '+' then (parseAfterSign b s2.tail).map Int.ofNat
  else if s2.headD ' ' = '-' then (parseAfterSign b s2.tail).map (fun n => -(n : Int))
  else (parseAfterSign b s2).map Int.ofNat

/-! ## The source: `cell.py` and `board.py` -/

/-- `Cell.__init__` from `cell.py`. -/
structure Cell where
  mine : Bool
  adjacentMines : Nat
  revealed : Bool
  flagged : Bool
deriving DecidableEq

instance : Inhabited Cell := ⟨⟨false, 0, false, false⟩⟩

/-- `decision` from `board.py`: `random() < probability`, with the random
draw `r` passed explicitly. -/
def decision (probability : ℚ) (r : ℚ) : Bool := r < probability

/-- The `fetchIndex` list built by `countAdjacent` in `board.py`
(lines 61–130): the nine-way corner/edge/interior classification, which is
computed from `width` alone. -/
def fetchIndexList (width index : Int) : List Int :=
  if index = 0 then  -- Top left
    [1, width, width + 1]
  else if index = width - 1 then  -- Top right
    [width - 2, 2 * width - 1, 2 * width - 2]
  else if index = width * (width - 1) then  -- Bottom left
    [width * (width - 2), width * (width - 1) + 1, width * (width - 2) + 1]
  else if index = width ^ 2 - 1 then  -- Bottom right
    [width ^ 2 - 2, width ^ 2 - width - 1, width ^ 2 - width - 2]
  else if index < width then  -- Top edge
    [index - 1, index + 1, index + width, index + width - 1, index + width + 1]
  else if index % width = 0 then  -- Left edge
    [index - width, index - width + 1, index + 1, index + width, index + width + 1]
  else if index % width = width - 1 then  -- Right edge
    [index - width, index - width - 1, index - 1, index + width, index + width - 1]
  else if index > width * (width - 1) then  -- Bottom edge
    [index - 1, index + 1, index - width, index - width - 1, index - width + 1]
  else  -- Interior
    [index - 1, index + 1, index - width, index + width,
     index - width - 1, index - width + 1, index + width - 1, index + width + 1]

/-- `countAdjacent` from `board.py` (lines 27–152).  Python `%` agrees with
`Int.emod` (Lean's `%` on `Int`) for the positive divisors the board uses.
`len(set(fetchIndex))` is the number of distinct entries, `dedup.length`. -/
def countAdjacent (cellBinary : List Bool) (width index : Int) : Except String Nat :=
  if index < 0 ∨ index ≥ (cellBinary.length : Int) then
    .error "Index out of bounds"
  else if (cellBinary.length : Int) % width ≠ 0 then
    .error "List does not form a rectangle"
  else
    let fetchIndex := fetchIndexList width index
    if fetchIndex.any (fun i => i < 0) then
      .error "Negative index found"
    else if fetchIndex.any (fun i => i ≥ (cellBinary.length : Int)) then
      .error "Index out of bounds"
    else if fetchIndex.length ≠ fetchIndex.dedup.length then
      .error "Duplicate indices found"
    else
      .ok ((fetchIndex.mergeSort (fun a b => a ≤ b)).countP
        (fun i => cellBinary.getD i.toNat false))

/-- `_verifyKey` from `board.py` (lines 155–173): left-pad the key with
zeroes up to `cellCount // 4` characters. -/
def verifyKey (key : List Char) (cellCount : Nat) : List Char :=
  if key.length < cellCount / 4 then
    List.replicate (cellCount / 4 - key.length) '0' ++ key
  else key

/-- A Python list comprehension whose element expression can raise: the
elements are produced left to right and the first raise aborts the whole
comprehension. -/
def exceptMap (f : α → Except String β) : List α → Except String (List β)
  | [] => .ok []
  | x :: xs =>
    match f x with
    | .error e => .error e
    | .ok y =>
      match exceptMap f xs with
      | .error e => .error e
      | .ok ys => .ok (y :: ys)

/-- `Board` attributes from `board.py`. -/
structure Board where
  width : Int
  height : Int
  probability : ℚ
  boardKey : List Char
  boardBits : List Char
  cells : List Cell
deriving DecidableEq

/-- The key-to-bits part of `Board.__init__` (lines 216–221), the spec's
`KeyCodec.decode`: `bin(int(boardKey, 16))[2:]`, then left-pad with `'0'`
when shorter than `cellCount`.  `MalformedKeyError` models the `ValueError`
raised by `int(boardKey, 16)`. -/
def decodeKey (boardKey : List Char) (cellCount : Int) : Except String (List Char) :=
  match pyIntParse 16 boardKey with
  | none => .error "MalformedKeyError"
  | some v =>
    let bits := pyBinDrop2 v
    .ok (if (bits.length : Int) < cellCount then
          List.replicate (cellCount - (bits.length : Int)).toNat '0' ++ bits
        else bits)

/-- The bits-to-key part of `Board._gen` (lines 248–252), the spec's
`KeyCodec.encode`: `hex(int(bits, 2))[2:]` then `_verifyKey`. -/
def encodeKey (bits : List Char) (cellCount : Nat) : Except String (List Char) :=
  match pyIntParse 2 bits with
  | none => .error "ValueError"
  | some v => .ok (verifyKey (pyHexDrop2 v) cellCount)

/-- `Board.__init__` with a `boardKey` supplied (reconstruct mode,
lines 206–227). -/
def mkBoardReconstruct (probability : ℚ) (width height : Int) (boardKey : List Char) :
    Except String Board :=
  match decodeKey boardKey (width * height) with
  | .error e => .error e
  | .ok boardBits =>
    let n := (width * height).toNat
    let cellBinary : List Bool := (List.range n).map (fun i => boardBits.getD i ' ' == '1')
    match exceptMap (fun (i : Nat) => (countAdjacent cellBinary width (Int.ofNat i)).map
        (fun c => Cell.mk (boardBits.getD i ' ' == '1') c false false)) (List.range n) with
    | .error e => .error e
    | .ok cells => .ok ⟨width, height, probability, boardKey, boardBits, cells⟩

/-- `Board.__init__` without a `boardKey`, i.e. `Board._gen` (generate
mode, lines 229–252).  `rand k` is the `k`-th value drawn from `random()`. -/
def mkBoardGen (probability : ℚ) (width height : Int) (rand : Nat → ℚ) :
    Except String Board :=
  let n := (width * height).toNat
  let cellBinary : List Bool := (List.range n).map (fun k => decision probability (rand k))
  match exceptMap (fun (i : Nat) => (countAdjacent cellBinary width (Int.ofNat i)).map
      (fun c => Cell.mk (cellBinary.getD i false) c false false)) (List.range n) with
  | .error e => .error e
  | .ok cells =>
    let boardBits : List Char :=
      (List.range n).map (fun i => if cellBinary.getD i false then '1' else '0')
    match encodeKey boardBits n with
    | .error e => .error e
    | .ok boardKey => .ok ⟨width, height, probability, boardKey, boardBits, cells⟩

/-! ## Brute-force adjacency (the specification side of claim C2) -/

/-- The indices of the topological neighbours of `i` on a `width × height`
grid stored row-major: the up-to-8 cells whose row and column each differ
from `i`'s by at most 1, inside the grid bounds, excluding `i` itself. -/
def neighborIndices (w h i : Nat) : List Nat :=
  (List.range (w * h)).filter (fun j =>
    j ≠ i ∧ j / w ≤ i / w + 1 ∧ i / w ≤ j / w + 1 ∧
    j % w ≤ i % w + 1 ∧ i % w ≤ j % w + 1)

/-- Brute-force count of mines among the topological neighbours of `i`. -/
def bruteAdjacent (cellBinary : List Bool) (w h i : Nat) : Nat :=
  (neighborIndices w h i).countP (fun j => cellBinary.getD j false)

/-- Number of topological neighbours of `i` on a `w × h` grid. -/
def neighborCount (w h i : Nat) : Nat := (neighborIndices w h i).length

/-- Index `i` is one of the four corner cells of a `w × h` grid. -/
def isCornerIdx (w h i : Nat) : Prop :=
  (i / w = 0 ∨ i / w = h - 1) ∧ (i % w = 0 ∨ i % w = w - 1)

/-- Index `i` is on the boundary of a `w × h` grid. -/
def isBoundaryIdx (w h i : Nat) : Prop :=
  i / w = 0 ∨ i / w = h - 1 ∨ i % w = 0 ∨ i % w = w - 1

instance (w h i : Nat) : Decidable (isCornerIdx w h i) := by
  unfold isCornerIdx; infer_instance

instance (w h i : Nat) : Decidable (isBoundaryIdx w h i) := by
  unfold isBoundaryIdx; infer_instance

/-! ## Lemmas about `exceptMap` -/

theorem exceptMap_nil {f : α → Except String β} : exceptMap f [] = .ok [] := rfl

theorem exceptMap_cons {f : α → Except String β} {x : α} {xs : List α} :
    exceptMap f (x :: xs) =
      match f x with
      | .error e => .error e
      | .ok y =>
        match exceptMap f xs with
        | .error e => .error e
        | .ok ys => .ok (y :: ys) := rfl

theorem exceptMap_ok_length {f : α → Except String β} :
    ∀ {l : List α} {ys : List β}, exceptMap f l = .ok ys → ys.length = l.length := by
  intro l
  induction l with
  | nil => intro ys h; cases h; rfl
  | cons x xs ih =>
    intro ys h
    rw [exceptMap_cons] at h
    cases hf : f x with
    | error e => rw [hf] at h; cases h
    | ok y =>
      rw [hf] at h
      cases hm : exceptMap f xs with
      | error e => rw [hm] at h; cases h
      | ok zs => rw [hm] at h; cases h; simp [ih hm]

theorem exceptMap_ok_getD {f : α → Except String β} (d : α) (d' : β) :
    ∀ {l : List α} {ys : List β}, exceptMap f l = .ok ys →
      ∀ k, k < l.length → f (l.getD k d) = .ok (ys.getD k d') := by
  intro l
  induction l with
  | nil => intro ys _ k hk; simp at hk
  | cons x xs ih =>
    intro ys h k hk
    rw [exceptMap_cons] at h
    cases hf : f x with
    | error e => rw [hf] at h; cases h
    | ok y =>
      rw [hf] at h
      cases hm : exceptMap f xs with
      | error e => rw [hm] at h; cases h
      | ok zs =>
        rw [hm] at h; cases h
        cases k with
        | zero => simpa using hf
        | succ k => simpa using ih hm k (by simpa using hk)

theorem exceptMap_ok_of_forall {f : α → Except String β} :
    ∀ {l : List α}, (∀ x ∈ l, ∃ y, f x = .ok y) →
      ∃ ys, exceptMap f l = .ok ys := by
  intro l
  induction l with
  | nil => intro _; exact ⟨[], rfl⟩
  | cons x xs ih =>
    intro h
    obtain ⟨y, hy⟩ := h x (by simp)
    obtain ⟨ys, hys⟩ := ih (fun z hz => h z (by simp [hz]))
    exact ⟨y :: ys, by rw [exceptMap_cons, hy, hys]⟩

theorem exceptMap_congr {f g : α → Except String β} :
    ∀ {l : List α}, (∀ x ∈ l, f x = g x) → exceptMap f l = exceptMap g l := by
  intro l
  induction l with
  | nil => intro _; rfl
  | cons x xs ih =>
    intro h
    rw [exceptMap_cons, exceptMap_cons, h x (by simp), ih (fun z hz => h z (by simp [hz]))]

theorem exceptMap_error_of_mem {f : α → Except String β} {l : List α} {x : α}
    (hx : x ∈ l) {e : String} (hfx : f x = .error e) :
    ∀ ys, exceptMap f l ≠ .ok ys := by
  induction l with
  | nil => simp at hx
  | cons z zs ih =>
    intro ys h
    rw [exceptMap_cons] at h
    cases hf : f z with
    | error e' => rw [hf] at h; cases h
    | ok y =>
      rw [hf] at h
      cases hm : exceptMap f zs with
      | error e' => rw [hm] at h; cases h
      | ok ws =>
        rcases List.mem_cons.1 hx with rfl | hx'
        · rw [hfx] at hf; cases hf
        · exact ih hx' ws hm

/-! ## Lemmas about digit rendering and `int(s, base)` parsing -/

/-- Big-endian value of a digit list. -/
def digitsVal (b : Nat) (ds : List Nat) : Nat := ds.foldl (fun a d => a * b + d) 0

/-- Big-endian value of a digit-character list. -/
def charsVal (b : Nat) (cs : List Char) : Nat :=
  cs.foldl (fun a c => a * b + (digitVal? b c).getD 0) 0

theorem digitVal?_none_of {b : Nat} (hb : b ≤ 16) (c : Char)
    (h1 : ¬('0' ≤ c ∧ c ≤ '9')) (h2 : ¬('a' ≤ c ∧ c ≤ 'f'))
    (h3 : ¬('A' ≤ c ∧ c ≤ 'F')) : digitVal? b c = none := by
  unfold digitVal?
  simp only [if_neg h1, if_neg h2, if_neg h3]
  rw [if_neg (by omega)]

theorem digitVal?_isSome_ranges {b : Nat} (hb : b ≤ 16) {c : Char}
    (h : (digitVal? b c).isSome) :
    ('0' ≤ c ∧ c ≤ '9') ∨ ('a' ≤ c ∧ c ≤ 'f') ∨ ('A' ≤ c ∧ c ≤ 'F') := by
  by_contra hc
  simp only [not_or] at hc
  rw [digitVal?_none_of hb c hc.1 hc.2.1 hc.2.2] at h
  simp at h

theorem isPyWs_eq_false_of_digit {b : Nat} (hb : b ≤ 16) {c : Char}
    (h : (digitVal? b c).isSome) : isPyWs c = false := by
  rcases digitVal?_isSome_ranges hb h with h' | h' | h' <;>
  · simp only [isPyWs, Char.le_def] at h' ⊢
    simp only [decide_eq_false_iff_not]
    rintro (rfl | rfl | rfl | rfl | rfl | rfl) <;> revert h' <;> decide

theorem digit_ne_special {b : Nat} (hb : b ≤ 16) {c : Char}
    (h : (digitVal? b c).isSome) : c ≠ '+' ∧ c ≠ '-' ∧ c ≠ '_' := by
  rcases digitVal?_isSome_ranges hb h with h' | h' | h' <;>
  · refine ⟨?_, ?_, ?_⟩ <;> rintro rfl <;> revert h' <;> decide

theorem basePrefix_not_digit {b : Nat} {c : Char}
    (h : c ∈ basePrefixChars b) : digitVal? b c = none := by
  unfold basePrefixChars at h
  split at h
  · subst ‹b = 16›; simp only [List.mem_cons, List.not_mem_nil, or_false] at h
    rcases h with rfl | rfl <;> decide
  split at h
  · subst ‹b = 2›; simp only [List.mem_cons, List.not_mem_nil, or_false] at h
    rcases h with rfl | rfl <;> decide
  split at h
  · subst ‹b = 8›; simp only [List.mem_cons, List.not_mem_nil, or_false] at h
    rcases h with rfl | rfl <;> decide
  · simp at h

theorem parseDigitsRest_digits {b : Nat} (hb : b ≤ 16) :
    ∀ (cs : List Char) (acc : Nat), (∀ c ∈ cs, (digitVal? b c).isSome) →
      parseDigitsRest b acc cs =
        some (cs.foldl (fun a c => a * b + (digitVal? b c).getD 0) acc) := by
  intro cs
  induction cs with
  | nil => intro acc _; rw [parseDigitsRest]; rfl
  | cons c cs ih =>
    intro acc h
    have hc : (digitVal? b c).isSome := h c (by simp)
    obtain ⟨d, hd⟩ := Option.isSome_iff_exists.1 hc
    rw [parseDigitsRest, if_neg (digit_ne_special hb hc).2.2, hd, Option.some_bind]
    simp only [List.foldl_cons, hd, Option.getD_some]
    exact ih (acc * b + d) (fun z hz => h z (by simp [hz]))

theorem parseDigitsStart_digits {b : Nat} (hb : b ≤ 16) {cs : List Char}
    (hne : cs ≠ []) (h : ∀ c ∈ cs, (digitVal? b c).isSome) :
    parseDigitsStart b cs = some (charsVal b cs) := by
  cases cs with
  | nil => cases hne rfl
  | cons c cs =>
    have hc : (digitVal? b c).isSome := h c (by simp)
    obtain ⟨d, hd⟩ := Option.isSome_iff_exists.1 hc
    rw [parseDigitsStart, if_neg (by simp)]
    simp only [List.headD_cons, List.tail_cons, hd, Option.some_bind]
    rw [parseDigitsRest_digits hb cs d (fun z hz => h z (by simp [hz]))]
    simp [charsVal, hd]

theorem parseAfterSign_digits {b : Nat} (hb : b ≤ 16) {cs : List Char}
    (hne : cs ≠ []) (h : ∀ c ∈ cs, (digitVal? b c).isSome) :
    parseAfterSign b cs = some (charsVal b cs) := by
  rw [parseAfterSign, if_neg ?hpre]
  · exact parseDigitsStart_digits hb hne h
  case hpre =>
    rintro ⟨h2, -, hmem⟩
    cases cs with
    | nil => simp at h2
    | cons c0 cs0 =>
      cases cs0 with
      | nil => simp at h2
      | cons c1 rest =>
        have hc1 : (digitVal? b c1).isSome := h c1 (by simp)
        rw [List.tail_cons, List.headD_cons] at hmem
        rw [basePrefix_not_digit hmem] at hc1
        simp at hc1

theorem dropWhile_eq_self_of_forall {p : Char → Bool} {l : List Char}
    (h : ∀ c ∈ l, p c = false) : l.dropWhile p = l := by
  cases l with
  | nil => rfl
  | cons x xs => rw [List.dropWhile_cons, h x (by simp)]; simp

theorem pyIntParse_digits {b : Nat} (hb : b ≤ 16) {cs : List Char}
    (hne : cs ≠ []) (h : ∀ c ∈ cs, (digitVal? b c).isSome) :
    pyIntParse b cs = some (Int.ofNat (charsVal b cs)) := by
  have hws : ∀ c ∈ cs, isPyWs c = false :=
    fun c hc => isPyWs_eq_false_of_digit hb (h c hc)
  unfold pyIntParse
  simp only [dropWhile_eq_self_of_forall hws,
    dropWhile_eq_self_of_forall (fun c hc => hws c (List.mem_reverse.1 hc)),
    List.reverse_reverse]
  cases cs with
  | nil => cases hne rfl
  | cons c rest =>
    have hc : (digitVal? b c).isSome := h c (by simp)
    rw [if_neg (by simp), List.headD_cons,
      if_neg (digit_ne_special hb hc).1, if_neg (digit_ne_special hb hc).2.1,
      parseAfterSign_digits hb hne h]
    rfl

/-! ## Rendering/parsing round trips -/

theorem digitsVal_cons {b d : Nat} {ds : List Nat} :
    digitsVal b (d :: ds) = ds.foldl (fun a x => a * b + x) d := by
  simp [digitsVal]

theorem digitsVal_append_single {b x : Nat} {ds : List Nat} :
    digitsVal b (ds ++ [x]) = digitsVal b ds * b + x := by
  simp [digitsVal, List.foldl_append]

theorem foldl_digits_le {b : Nat} (hb : 1 ≤ b) :
    ∀ (ds : List Nat) (acc : Nat), acc ≤ ds.foldl (fun a x => a * b + x) acc := by
  intro ds
  induction ds with
  | nil => intro acc; simp
  | cons d ds ih =>
    intro acc
    calc acc ≤ acc * b + d := by nlinarith
    _ ≤ _ := by simpa using ih (acc * b + d)

theorem digitsVal_pos {b d : Nat} (hb : 1 ≤ b) (hd : d ≠ 0) (ds : List Nat) :
    0 < digitsVal b (d :: ds) := by
  rw [digitsVal_cons]
  calc 0 < d := Nat.pos_of_ne_zero hd
  _ ≤ _ := foldl_digits_le hb ds d

theorem natDigits_eq_nil {b n : Nat} (h : ¬(2 ≤ b ∧ 0 < n)) : natDigits b n = [] := by
  rw [natDigits, dif_neg h]

theorem natDigits_eq_cons {b n : Nat} (hb : 2 ≤ b) (hn : 0 < n) :
    natDigits b n = (n % b) :: natDigits b (n / b) := by
  rw [natDigits, dif_pos ⟨hb, hn⟩]

theorem natDigits_lt {b : Nat} (hb : 2 ≤ b) :
    ∀ (n : Nat), ∀ d ∈ natDigits b n, d < b := by
  intro n
  induction n using Nat.strong_induction_on with
  | _ n ih =>
    intro d hd
    by_cases hn : 0 < n
    · rw [natDigits_eq_cons hb hn] at hd
      rcases List.mem_cons.1 hd with rfl | hd'
      · exact Nat.mod_lt _ (by omega)
      · exact ih (n / b) (Nat.div_lt_self hn (by omega)) d hd'
    · rw [natDigits_eq_nil (by omega)] at hd; simp at hd

theorem natDigits_single {b d : Nat} (hb : 2 ≤ b) (h0 : 0 < d) (hd : d < b) :
    natDigits b d = [d] := by
  rw [natDigits_eq_cons hb h0, Nat.mod_eq_of_lt hd, Nat.div_eq_of_lt hd,
    natDigits_eq_nil (by omega)]

theorem digitsVal_reverse_natDigits {b : Nat} (hb : 2 ≤ b) :
    ∀ n : Nat, digitsVal b (natDigits b n).reverse = n := by
  intro n
  induction n using Nat.strong_induction_on with
  | _ n ih =>
    by_cases hn : 0 < n
    · rw [natDigits_eq_cons hb hn]
      simp only [List.reverse_cons]
      rw [digitsVal_append_single, ih (n / b) (Nat.div_lt_self hn (by omega)),
        Nat.mul_comm]
      exact Nat.div_add_mod n b
    · rw [natDigits_eq_nil (by omega)]
      simp only [List.reverse_nil]
      simp [digitsVal]; omega

theorem natDigits_digitsVal {b : Nat} (hb : 2 ≤ b) :
    ∀ ds : List Nat, (∀ d ∈ ds, d < b) → ds ≠ [] → ds.headD 0 ≠ 0 →
      natDigits b (digitsVal b ds) = ds.reverse := by
  intro ds
  induction ds using List.reverseRecOn with
  | nil => intro _ hne _; cases hne rfl
  | append_singleton xs x ih =>
    intro hlt hne hhead
    rw [digitsVal_append_single]
    cases xs with
    | nil =>
      simp only [List.nil_append, List.headD_cons] at hhead
      simp only [digitsVal, List.foldl_nil, Nat.zero_mul, Nat.zero_add]
      rw [natDigits_single hb (Nat.pos_of_ne_zero hhead) (hlt x (by simp))]
      simp
    | cons y ys =>
      have hyx : (y :: ys).headD 0 ≠ 0 := by simpa using hhead
      have hy : y ≠ 0 := by simpa using hyx
      have hVpos : 0 < digitsVal b (y :: ys) := digitsVal_pos (by omega) hy ys
      have hVlt : ∀ d ∈ (y :: ys), d < b := fun d hd => hlt d (by simp at hd ⊢; tauto)
      have hstep : 0 < digitsVal b (y :: ys) * b + x := by positivity
      rw [natDigits_eq_cons hb hstep]
      have hxlt : x < b := hlt x (by simp)
      have hmod : (digitsVal b (y :: ys) * b + x) % b = x := by
        rw [Nat.mul_comm, Nat.mul_add_mod, Nat.mod_eq_of_lt hxlt]
      have hdiv : (digitsVal b (y :: ys) * b + x) / b = digitsVal b (y :: ys) := by
        rw [Nat.mul_comm, Nat.mul_add_div (by omega), Nat.div_eq_of_lt hxlt,
          Nat.add_zero]
      rw [hmod, hdiv, ih hVlt (by simp) hyx]
      simp

theorem digitChar_zero : Nat.digitChar 0 = '0' := rfl

theorem digitChar_one : Nat.digitChar 1 = '1' := rfl

theorem pyDigits_zero {b : Nat} : pyDigits b 0 = ['0'] := by simp [pyDigits]

theorem pyDigits_pos {b n : Nat} (hn : n ≠ 0) :
    pyDigits b n = (natDigits b n).reverse.map Nat.digitChar := by
  simp [pyDigits, hn]

/-- Rendering the value of a digit string and left-padding with zeroes back
to its length recovers the digit string (Python's `bin`/`hex` drop leading
zero digits; the padding puts them back). -/
theorem pyDigits_digitsVal {b : Nat} (hb : 2 ≤ b) :
    ∀ ds : List Nat, (∀ d ∈ ds, d < b) → ds ≠ [] →
      (pyDigits b (digitsVal b ds)).length ≤ ds.length ∧
      List.replicate (ds.length - (pyDigits b (digitsVal b ds)).length) '0' ++
        pyDigits b (digitsVal b ds) = ds.map Nat.digitChar := by
  intro ds
  induction ds with
  | nil => intro _ h; cases h rfl
  | cons d ds ih =>
    intro hlt _
    by_cases hds : ds = []
    · subst hds
      by_cases hd : d = 0
      · subst hd
        have hv : digitsVal b [0] = 0 := by simp [digitsVal]
        rw [hv, pyDigits_zero]
        exact ⟨le_refl 1, by simp [digitChar_zero]⟩
      · have hv : digitsVal b [d] = d := by simp [digitsVal]
        rw [hv, pyDigits_pos hd,
          natDigits_single hb (Nat.pos_of_ne_zero hd) (hlt d (by simp))]
        simp
    · by_cases hd : d = 0
      · subst hd
        have hv : digitsVal b (0 :: ds) = digitsVal b ds := by simp [digitsVal]
        obtain ⟨ihlen, iheq⟩ := ih (fun x hx => hlt x (by simp [hx])) hds
        rw [hv]
        refine ⟨by simpa using Nat.le_succ_of_le ihlen, ?_⟩
        have hlen : (0 :: ds).length - (pyDigits b (digitsVal b ds)).length =
            (ds.length - (pyDigits b (digitsVal b ds)).length) + 1 := by
          simp only [List.length_cons]; omega
        rw [hlen, List.replicate_succ, List.cons_append, iheq]
        simp [digitChar_zero]
      · have hpos : 0 < digitsVal b (d :: ds) := digitsVal_pos (by omega) hd ds
        rw [pyDigits_pos (by omega),
          natDigits_digitsVal hb (d :: ds) hlt (by simp) (by simpa using hd)]
        simp

theorem digitVal?_digitChar :
    ∀ b < 17, ∀ d < 16, d < b → digitVal? b (Nat.digitChar d) = some d := by decide

theorem digitChar_isSome {b : Nat} (hb16 : b ≤ 16) {d : Nat} (hd : d < b) :
    (digitVal? b (Nat.digitChar d)).isSome := by
  rw [digitVal?_digitChar b (by omega) d (by omega) hd]; rfl

theorem digitVal?_zero_char {b : Nat} (h1 : 1 ≤ b) (h2 : b ≤ 16) :
    digitVal? b '0' = some 0 :=
  digitVal?_digitChar b (by omega) 0 (by omega) (by omega)

theorem foldl_chars_map_digitChar {b : Nat} (hb16 : b ≤ 16) :
    ∀ (ds : List Nat), (∀ d ∈ ds, d < b) → ∀ acc : Nat,
      (ds.map Nat.digitChar).foldl (fun a c => a * b + (digitVal? b c).getD 0) acc =
        ds.foldl (fun a x => a * b + x) acc := by
  intro ds
  induction ds with
  | nil => intro _ acc; rfl
  | cons d ds ih =>
    intro hlt acc
    simp only [List.map_cons, List.foldl_cons]
    have hdb : d < b := hlt d (by simp)
    rw [digitVal?_digitChar b (by omega) d (by omega) hdb, Option.getD_some]
    exact ih (fun x hx => hlt x (by simp [hx])) _

theorem charsVal_map_digitChar {b : Nat} (hb16 : b ≤ 16)
    {ds : List Nat} (hlt : ∀ d ∈ ds, d < b) :
    charsVal b (ds.map Nat.digitChar) = digitsVal b ds :=
  foldl_chars_map_digitChar hb16 ds hlt 0

theorem charsVal_replicate_zero {b : Nat} (h1 : 1 ≤ b) (h2 : b ≤ 16)
    (k : Nat) (cs : List Char) :
    charsVal b (List.replicate k '0' ++ cs) = charsVal b cs := by
  induction k with
  | zero => simp
  | succ k ih =>
    rw [List.replicate_succ, List.cons_append]
    unfold charsVal
    rw [List.foldl_cons, digitVal?_zero_char h1 h2]
    simpa [charsVal] using ih

/-- Parsing a rendered digit string with any number of leading zero
characters recovers the value. -/
theorem pyIntParse_pad_map_digitChar {b : Nat} (hb2 : 2 ≤ b) (hb16 : b ≤ 16)
    (k : Nat) {ds : List Nat} (hlt : ∀ d ∈ ds, d < b) (hne : ds ≠ []) :
    pyIntParse b (List.replicate k '0' ++ ds.map Nat.digitChar) =
      some (Int.ofNat (digitsVal b ds)) := by
  have hdig : ∀ c ∈ List.replicate k '0' ++ ds.map Nat.digitChar,
      (digitVal? b c).isSome := by
    intro c hc
    rcases List.mem_append.1 hc with hc | hc
    · rw [List.eq_of_mem_replicate hc, digitVal?_zero_char (by omega) hb16]; rfl
    · obtain ⟨d, hd, rfl⟩ := List.mem_map.1 hc
      exact digitChar_isSome hb16 (hlt d hd)
  rw [pyIntParse_digits hb16 ?nonempty hdig,
    charsVal_replicate_zero (by omega) hb16, charsVal_map_digitChar hb16 hlt]
  case nonempty =>
    intro habs
    rcases List.append_eq_nil.1 habs with ⟨-, h2'⟩
    exact hne (List.map_eq_nil_iff.1 h2')

/-- `_verifyKey` only prepends zero characters. -/
theorem verifyKey_eq (key : List Char) (cellCount : Nat) :
    ∃ k, verifyKey key cellCount = List.replicate k '0' ++ key := by
  unfold verifyKey
  split
  · exact ⟨_, rfl⟩
  · exact ⟨0, by simp⟩

theorem verifyKey_length (key : List Char) (cellCount : Nat) :
    cellCount / 4 ≤ (verifyKey key cellCount).length ∨
      (verifyKey key cellCount) = key := by
  unfold verifyKey
  split
  · left; simp; omega
  · right; rfl

theorem getD_map_range {α : Type} (f : Nat → α) (n i : Nat) (hi : i < n) (d : α) :
    (((List.range n).map f).getD i d) = f i := by
  rw [List.getD_eq_getElem _ _ (by simpa using hi)]
  simp

/-! ## Row/column arithmetic for the square-grid analysis -/

theorem enc_div {w r c : Nat} (hc : c < w) : (r * w + c) / w = r := by
  rw [Nat.add_comm, Nat.add_mul_div_right _ _ (by omega : 0 < w),
    Nat.div_eq_of_lt hc, Nat.zero_add]

theorem enc_mod {w r c : Nat} (hc : c < w) : (r * w + c) % w = c := by
  rw [Nat.add_comm, Nat.add_mul_mod_self_right, Nat.mod_eq_of_lt hc]

theorem eq_enc_iff {w i r c : Nat} (hc : c < w) :
    i = r * w + c ↔ (i / w = r ∧ i % w = c) := by
  constructor
  · rintro rfl; exact ⟨enc_div hc, enc_mod hc⟩
  · rintro ⟨h1, h2⟩
    have hsum := Nat.div_add_mod i w
    rw [h1, h2] at hsum
    rw [← hsum]; ring

theorem enc_lt {w h r c : Nat} (hr : r < h) (hc : c < w) : r * w + c < w * h :=
  calc r * w + c < r * w + w := by omega
  _ = (r + 1) * w := by ring
  _ ≤ h * w := Nat.mul_le_mul_right w (by omega)
  _ = w * h := Nat.mul_comm h w

theorem sq_sub_one_eq {w : Nat} (hw : 1 ≤ w) :
    w * w - 1 = (w - 1) * w + (w - 1) := by
  obtain ⟨v, rfl⟩ : ∃ v, w = v + 1 := ⟨w - 1, by omega⟩
  simp only [Nat.add_sub_cancel]
  rw [Nat.sub_eq_iff_eq_add (by nlinarith : 1 ≤ (v + 1) * (v + 1))]
  ring

theorem div_lt_of_lt_sq {w i : Nat} (hw : 0 < w) (hi : i < w * w) : i / w < w :=
  (Nat.div_lt_iff_lt_mul hw).2 hi

/-! Translations of the Int-level branch conditions of `fetchIndexList` to
Nat-level row/column facts. -/

theorem cast_mul_sub_one {w : Nat} (hw : 1 ≤ w) :
    ((w * (w - 1) : Nat) : Int) = (w : Int) * ((w : Int) - 1) := by
  push_cast [Nat.cast_sub hw]
  ring

theorem cond_eq_zero {i : Nat} : ((i : Int) = 0) ↔ i = 0 := by
  constructor <;> intro h <;> omega

theorem cond_eq_w_sub_one {w i : Nat} (hw : 1 ≤ w) :
    ((i : Int) = (w : Int) - 1) ↔ i = w - 1 := by
  constructor <;> intro h <;> omega

theorem cond_eq_bl {w i : Nat} (hw : 1 ≤ w) :
    ((i : Int) = (w : Int) * ((w : Int) - 1)) ↔ i = w * (w - 1) := by
  rw [← cast_mul_sub_one hw, Nat.cast_inj]

theorem cond_eq_br {w i : Nat} (hw : 1 ≤ w) :
    ((i : Int) = (w : Int) ^ 2 - 1) ↔ i = w * w - 1 := by
  have h1 : ((w * w - 1 : Nat) : Int) = (w : Int) ^ 2 - 1 := by
    rw [Nat.cast_sub (show 1 ≤ w * w by nlinarith)]
    push_cast
    ring
  rw [← h1, Nat.cast_inj]

theorem cond_lt_w {w i : Nat} : ((i : Int) < (w : Int)) ↔ i < w := by
  constructor <;> intro h <;> omega

theorem cond_mod_zero {w i : Nat} : ((i : Int) % (w : Int) = 0) ↔ i % w = 0 := by
  rw [← Int.natCast_mod]
  constructor <;> intro h <;> omega

theorem cond_mod_w_sub_one {w i : Nat} (hw : 1 ≤ w) :
    ((i : Int) % (w : Int) = (w : Int) - 1) ↔ i % w = w - 1 := by
  rw [← Int.natCast_mod]
  constructor <;> intro h <;> omega

theorem cond_gt_bl {w i : Nat} (hw : 1 ≤ w) :
    ((i : Int) > (w : Int) * ((w : Int) - 1)) ↔ i > w * (w - 1) := by
  rw [← cast_mul_sub_one hw]
  omega

/-! Row/column consequences of the branch conditions. -/

theorem div_mod_of_zero {w i : Nat} (h : i = 0) : i / w = 0 ∧ i % w = 0 := by
  subst h; simp

theorem div_mod_of_tr {w i : Nat} (hw : 2 ≤ w) (h : i = w - 1) :
    i / w = 0 ∧ i % w = w - 1 := by
  have h1 : i < w := by omega
  exact ⟨Nat.div_eq_of_lt h1, by rw [Nat.mod_eq_of_lt h1]; omega⟩

theorem div_mod_of_bl {w i : Nat} (hw : 2 ≤ w) (h : i = w * (w - 1)) :
    i / w = w - 1 ∧ i % w = 0 := by
  have key : i = (w - 1) * w + 0 := by rw [h, Nat.add_zero, Nat.mul_comm]
  exact (eq_enc_iff (show 0 < w by omega)).1 key

theorem div_mod_of_br {w i : Nat} (hw : 2 ≤ w) (h : i = w * w - 1) :
    i / w = w - 1 ∧ i % w = w - 1 := by
  have key : i = (w - 1) * w + (w - 1) := by rw [h]; exact sq_sub_one_eq (by omega)
  exact (eq_enc_iff (show w - 1 < w by omega)).1 key

theorem div_of_gt_bl {w i : Nat} (hw : 2 ≤ w) (hi : i < w * w)
    (h : i > w * (w - 1)) : i / w = w - 1 ∧ 1 ≤ i % w := by
  have h1 : w * (w - 1) / w = w - 1 := Nat.mul_div_cancel_left _ (by omega)
  have h2 : w - 1 ≤ i / w := h1 ▸ Nat.div_le_div_right (by omega)
  have h3 : i / w < w := div_lt_of_lt_sq (by omega) hi
  have hdiv : i / w = w - 1 := by omega
  refine ⟨hdiv, ?_⟩
  by_contra hmod
  have hm0 : i % w = 0 := by omega
  have hsum := Nat.div_add_mod i w
  rw [hdiv, hm0, Nat.add_zero] at hsum
  rw [hsum] at h
  exact absurd h (lt_irrefl i)

/-! ## Membership in `neighborIndices` -/

theorem mem_neighborIndices {w h i j : Nat} :
    j ∈ neighborIndices w h i ↔
      j < w * h ∧ j ≠ i ∧ j / w ≤ i / w + 1 ∧ i / w ≤ j / w + 1 ∧
        j % w ≤ i % w + 1 ∧ i % w ≤ j % w + 1 := by
  simp [neighborIndices, List.mem_filter, List.mem_range, and_assoc]

theorem neighborIndices_nodup (w h i : Nat) : (neighborIndices w h i).Nodup :=
  (List.nodup_range _).filter _

/-- Forward membership: a cell encoded by row `jr` and column `jc` that is
within one row and one column of `i` (and isn't `i`) is a topological
neighbour of `i` on the `w × w` grid. -/
theorem nbr_forward {w i jr jc r c : Nat} (hw : 0 < w) (hjr : jr < w) (hjc : jc < w)
    (hdiv : i / w = r) (hmod : i % w = c)
    (hne : ¬(jr = r ∧ jc = c))
    (h1 : jr ≤ r + 1) (h2 : r ≤ jr + 1) (h3 : jc ≤ c + 1) (h4 : c ≤ jc + 1) :
    jr * w + jc ∈ neighborIndices w w i := by
  have hxd : (jr * w + jc) / w = jr := enc_div hjc
  have hxm : (jr * w + jc) % w = jc := enc_mod hjc
  rw [mem_neighborIndices]
  refine ⟨enc_lt hjr hjc, ?_, by rw [hxd, hdiv]; omega, by rw [hxd, hdiv]; omega,
    by rw [hxm, hmod]; omega, by rw [hxm, hmod]; omega⟩
  intro heq
  exact hne ⟨by rw [heq] at hxd; omega, by rw [heq] at hxm; omega⟩

/-- Backward membership: every topological neighbour of `i` decomposes into
a row/column pair within one of `i`'s. -/
theorem nbr_backward {w i x r c : Nat} (hw : 0 < w)
    (hdiv : i / w = r) (hmod : i % w = c) (hx : x ∈ neighborIndices w w i) :
    ∃ jr jc, x = jr * w + jc ∧ jc < w ∧ jr < w ∧ ¬(jr = r ∧ jc = c) ∧
      jr ≤ r + 1 ∧ r ≤ jr + 1 ∧ jc ≤ c + 1 ∧ c ≤ jc + 1 := by
  rw [mem_neighborIndices] at hx
  obtain ⟨hlt, hne, h1, h2, h3, h4⟩ := hx
  rw [hdiv] at h1 h2
  rw [hmod] at h3 h4
  have hxe : x = x / w * w + x % w := by
    have hs := Nat.div_add_mod x w
    have hc := Nat.mul_comm w (x / w)
    omega
  refine ⟨x / w, x % w, hxe, Nat.mod_lt _ hw, div_lt_of_lt_sq hw hlt, ?_,
    h1, h2, h3, h4⟩
  rintro ⟨ha, hb⟩
  have hcw : c < w := by rw [← hmod]; exact Nat.mod_lt _ hw
  exact hne (((eq_enc_iff hcw).2 ⟨ha, hb⟩).trans
    ((eq_enc_iff hcw).2 ⟨hdiv, hmod⟩).symm)

/-- Top-left corner of a square board. -/
theorem square_case_tl (w i : Nat) (hw : 2 ≤ w) (hi : i < w * w)
    (hdiv : i / w = 0) (hmod : i % w = 0) :
    ∃ ns : List Nat, fetchIndexList (w : Int) (i : Int) = ns.map (Nat.cast : Nat → Int) ∧
      List.Perm ns (neighborIndices w w i) ∧ ns.length = 3 := by
  obtain ⟨v, rfl⟩ : ∃ v, w = v + 2 := ⟨w - 2, by omega⟩
  have hb0 : 0 * (v + 2) = 0 := by ring
  have hb1 : 1 * (v + 2) = v + 2 := by ring
  have hi_enc : i = 0 * (v + 2) + 0 := (eq_enc_iff (by omega)).2 ⟨hdiv, hmod⟩
  refine ⟨[0 * (v + 2) + 1, 1 * (v + 2) + 0, 1 * (v + 2) + 1], ?_, ?_, rfl⟩
  · unfold fetchIndexList
    rw [if_pos (cond_eq_zero.2 (by omega))]
    simp only [List.map_cons, List.map_nil, List.cons.injEq, and_true]
    refine ⟨by omega, by omega, by omega⟩
  · refine List.perm_of_nodup_nodup_toFinset_eq ?_ (neighborIndices_nodup _ _ _) ?_
    · simp only [List.nodup_cons, List.mem_cons, List.not_mem_nil, or_false, not_or,
        List.nodup_nil, and_true, not_false_eq_true]
      refine ⟨⟨?_, ?_⟩, ?_⟩ <;> omega
    · ext x
      simp only [List.mem_toFinset, List.mem_cons, List.not_mem_nil, or_false]
      constructor
      · rintro (rfl | rfl | rfl) <;>
          exact nbr_forward (by omega) (by omega) (by omega) hdiv hmod
            (by omega) (by omega) (by omega) (by omega) (by omega)
      · intro hx
        obtain ⟨jr, jc, hxe, hjc, hjr, hne, b1, b2, b3, b4⟩ :=
          nbr_backward (by omega) hdiv hmod hx
        have hjr2 : jr = 0 ∨ jr = 1 := by omega
        have hjc2 : jc = 0 ∨ jc = 1 := by omega
        rcases hjr2 with rfl | rfl <;> rcases hjc2 with rfl | rfl <;>
          simp only [hxe, true_or, or_true] <;> first | trivial | omega

/-- Top-right corner of a square board. -/
theorem square_case_tr (w i : Nat) (hw : 2 ≤ w) (hi : i < w * w)
    (hdiv : i / w = 0) (hmod : i % w = w - 1) :
    ∃ ns : List Nat, fetchIndexList (w : Int) (i : Int) = ns.map (Nat.cast : Nat → Int) ∧
      List.Perm ns (neighborIndices w w i) ∧ ns.length = 3 := by
  obtain ⟨v, rfl⟩ : ∃ v, w = v + 2 := ⟨w - 2, by omega⟩
  have hmod' : i % (v + 2) = v + 1 := by omega
  have hb0 : 0 * (v + 2) = 0 := by ring
  have hb1 : 1 * (v + 2) = v + 2 := by ring
  have hi_enc : i = 0 * (v + 2) + (v + 1) := (eq_enc_iff (by omega)).2 ⟨hdiv, hmod'⟩
  refine ⟨[0 * (v + 2) + v, 1 * (v + 2) + (v + 1), 1 * (v + 2) + v], ?_, ?_, rfl⟩
  · unfold fetchIndexList
    rw [if_neg (by rw [cond_eq_zero]; omega),
      if_pos ((cond_eq_w_sub_one (by omega)).2 (by omega))]
    simp only [List.map_cons, List.map_nil, List.cons.injEq, and_true]
    refine ⟨by omega, by omega, by omega⟩
  · refine List.perm_of_nodup_nodup_toFinset_eq ?_ (neighborIndices_nodup _ _ _) ?_
    · simp only [List.nodup_cons, List.mem_cons, List.not_mem_nil, or_false, not_or,
        List.nodup_nil, and_true, not_false_eq_true]
      refine ⟨⟨?_, ?_⟩, ?_⟩ <;> omega
    · ext x
      simp only [List.mem_toFinset, List.mem_cons, List.not_mem_nil, or_false]
      constructor
      · rintro (rfl | rfl | rfl) <;>
          exact nbr_forward (by omega) (by omega) (by omega) hdiv hmod'
            (by omega) (by omega) (by omega) (by omega) (by omega)
      · intro hx
        obtain ⟨jr, jc, hxe, hjc, hjr, hne, b1, b2, b3, b4⟩ :=
          nbr_backward (by omega) hdiv hmod' hx
        have hjr2 : jr = 0 ∨ jr = 1 := by omega
        have hjc2 : jc = v ∨ jc = v + 1 := by omega
        rcases hjr2 with rfl | rfl <;> rcases hjc2 with rfl | rfl <;>
          simp only [hxe, true_or, or_true] <;> first | trivial | omega

/-- Bottom-left corner of a square board. -/
theorem square_case_bl (w i : Nat) (hw : 2 ≤ w) (hi : i < w * w)
    (hdiv : i / w = w - 1) (hmod : i % w = 0) :
    ∃ ns : List Nat, fetchIndexList (w : Int) (i : Int) = ns.map (Nat.cast : Nat → Int) ∧
      List.Perm ns (neighborIndices w w i) ∧ ns.length = 3 := by
  obtain ⟨v, rfl⟩ : ∃ v, w = v + 2 := ⟨w - 2, by omega⟩
  have hdiv' : i / (v + 2) = v + 1 := by omega
  have hbd : (v + 1) * (v + 2) = v * (v + 2) + (v + 2) := by ring
  have hswap : (v + 2) * (v + 2 - 1) = (v + 1) * (v + 2) := by
    have h21 : v + 2 - 1 = v + 1 := by omega
    rw [h21]; ring
  have hi_enc : i = (v + 1) * (v + 2) + 0 := (eq_enc_iff (by omega)).2 ⟨hdiv', hmod⟩
  refine ⟨[v * (v + 2) + 0, (v + 1) * (v + 2) + 1, v * (v + 2) + 1], ?_, ?_, rfl⟩
  · unfold fetchIndexList
    rw [if_neg (by rw [cond_eq_zero]; omega),
      if_neg (by rw [cond_eq_w_sub_one (by omega)]; omega),
      if_pos ((cond_eq_bl (by omega)).2 (by omega))]
    simp only [List.map_cons, List.map_nil, List.cons.injEq, and_true]
    refine ⟨by push_cast; ring, by push_cast [hswap]; ring, by push_cast; ring⟩
  · refine List.perm_of_nodup_nodup_toFinset_eq ?_ (neighborIndices_nodup _ _ _) ?_
    · simp only [List.nodup_cons, List.mem_cons, List.not_mem_nil, or_false, not_or,
        List.nodup_nil, and_true, not_false_eq_true]
      refine ⟨⟨?_, ?_⟩, ?_⟩ <;> omega
    · ext x
      simp only [List.mem_toFinset, List.mem_cons, List.not_mem_nil, or_false]
      constructor
      · rintro (rfl | rfl | rfl) <;>
          exact nbr_forward (by omega) (by omega) (by omega) hdiv' hmod
            (by omega) (by omega) (by omega) (by omega) (by omega)
      · intro hx
        obtain ⟨jr, jc, hxe, hjc, hjr, hne, b1, b2, b3, b4⟩ :=
          nbr_backward (by omega) hdiv' hmod hx
        have hjr2 : jr = v ∨ jr = v + 1 := by omega
        have hjc2 : jc = 0 ∨ jc = 1 := by omega
        rcases hjr2 with rfl | rfl <;> rcases hjc2 with rfl | rfl <;>
          simp only [hxe, true_or, or_true] <;> first | trivial | omega

/-- Bottom-right corner of a square board. -/
theorem square_case_br (w i : Nat) (hw : 2 ≤ w) (hi : i < w * w)
    (hdiv : i / w = w - 1) (hmod : i % w = w - 1) :
    ∃ ns : List Nat, fetchIndexList (w : Int) (i : Int) = ns.map (Nat.cast : Nat → Int) ∧
      List.Perm ns (neighborIndices w w i) ∧ ns.length = 3 := by
  obtain ⟨v, rfl⟩ : ∃ v, w = v + 2 := ⟨w - 2, by omega⟩
  have hdiv' : i / (v + 2) = v + 1 := by omega
  have hmod' : i % (v + 2) = v + 1 := by omega
  have hbd : (v + 1) * (v + 2) = v * (v + 2) + (v + 2) := by ring
  have hbr : (v + 2) * (v + 2) - 1 = (v + 1) * (v + 2) + (v + 1) := by
    have := sq_sub_one_eq (show 1 ≤ v + 2 by omega)
    have h21 : v + 2 - 1 = v + 1 := by omega
    rw [h21] at this
    exact this
  have hi_enc : i = (v + 1) * (v + 2) + (v + 1) := (eq_enc_iff (by omega)).2 ⟨hdiv', hmod'⟩
  refine ⟨[(v + 1) * (v + 2) + v, v * (v + 2) + (v + 1), v * (v + 2) + v], ?_, ?_, rfl⟩
  · unfold fetchIndexList
    rw [if_neg (by rw [cond_eq_zero]; omega),
      if_neg (by rw [cond_eq_w_sub_one (by omega)]; omega),
      if_neg (fun h => by have := div_mod_of_bl (by omega) ((cond_eq_bl (by omega)).1 h); omega),
      if_pos ((cond_eq_br (by omega)).2 (by omega))]
    simp only [List.map_cons, List.map_nil, List.cons.injEq, and_true]
    refine ⟨by push_cast; ring, by push_cast; ring, by push_cast; ring⟩
  · refine List.perm_of_nodup_nodup_toFinset_eq ?_ (neighborIndices_nodup _ _ _) ?_
    · simp only [List.nodup_cons, List.mem_cons, List.not_mem_nil, or_false, not_or,
        List.nodup_nil, and_true, not_false_eq_true]
      refine ⟨⟨?_, ?_⟩, ?_⟩ <;> omega
    · ext x
      simp only [List.mem_toFinset, List.mem_cons, List.not_mem_nil, or_false]
      constructor
      · rintro (rfl | rfl | rfl) <;>
          exact nbr_forward (by omega) (by omega) (by omega) hdiv' hmod'
            (by omega) (by omega) (by omega) (by omega) (by omega)
      · intro hx
        obtain ⟨jr, jc, hxe, hjc, hjr, hne, b1, b2, b3, b4⟩ :=
          nbr_backward (by omega) hdiv' hmod' hx
        have hjr2 : jr = v ∨ jr = v + 1 := by omega
        have hjc2 : jc = v ∨ jc = v + 1 := by omega
        rcases hjr2 with rfl | rfl <;> rcases hjc2 with rfl | rfl <;>
          simp only [hxe, true_or, or_true] <;> first | trivial | omega

/-- Top-edge (non-corner) cell of a square board. -/
theorem square_case_top (w i c' : Nat) (hw : 2 ≤ w) (hi : i < w * w)
    (hdiv : i / w = 0) (hmod : i % w = c' + 1) (hc : c' + 1 ≤ w - 2) :
    ∃ ns : List Nat, fetchIndexList (w : Int) (i : Int) = ns.map (Nat.cast : Nat → Int) ∧
      List.Perm ns (neighborIndices w w i) ∧ ns.length = 5 := by
  obtain ⟨v, rfl⟩ : ∃ v, w = v + 2 := ⟨w - 2, by omega⟩
  have hb0 : 0 * (v + 2) = 0 := by ring
  have hb1 : 1 * (v + 2) = v + 2 := by ring
  have hi_enc : i = 0 * (v + 2) + (c' + 1) := (eq_enc_iff (by omega)).2 ⟨hdiv, hmod⟩
  refine ⟨[0 * (v + 2) + c', 0 * (v + 2) + (c' + 2), 1 * (v + 2) + (c' + 1),
    1 * (v + 2) + c', 1 * (v + 2) + (c' + 2)], ?_, ?_, rfl⟩
  · unfold fetchIndexList
    rw [if_neg (by rw [cond_eq_zero]; omega),
      if_neg (by rw [cond_eq_w_sub_one (by omega)]; omega),
      if_neg (fun h => by have := div_mod_of_bl (by omega) ((cond_eq_bl (by omega)).1 h); omega),
      if_neg (fun h => by have := div_mod_of_br (by omega) ((cond_eq_br (by omega)).1 h); omega),
      if_pos (cond_lt_w.2 (by omega))]
    simp only [List.map_cons, List.map_nil, List.cons.injEq, and_true]
    refine ⟨by omega, by omega, by omega, by omega, by omega⟩
  · refine List.perm_of_nodup_nodup_toFinset_eq ?_ (neighborIndices_nodup _ _ _) ?_
    · simp only [List.nodup_cons, List.mem_cons, List.not_mem_nil, or_false, not_or,
        List.nodup_nil, and_true, not_false_eq_true]
      refine ⟨⟨?_, ?_, ?_, ?_⟩, ⟨?_, ?_, ?_⟩, ⟨?_, ?_⟩, ?_⟩ <;> omega
    · ext x
      simp only [List.mem_toFinset, List.mem_cons, List.not_mem_nil, or_false]
      constructor
      · rintro (rfl | rfl | rfl | rfl | rfl) <;>
          exact nbr_forward (by omega) (by omega) (by omega) hdiv hmod
            (by omega) (by omega) (by omega) (by omega) (by omega)
      · intro hx
        obtain ⟨jr, jc, hxe, hjc, hjr, hne, b1, b2, b3, b4⟩ :=
          nbr_backward (by omega) hdiv hmod hx
        have hjr2 : jr = 0 ∨ jr = 1 := by omega
        have hjc3 : jc = c' ∨ jc = c' + 1 ∨ jc = c' + 2 := by omega
        rcases hjr2 with rfl | rfl <;> rcases hjc3 with rfl | rfl | rfl <;>
          simp only [hxe, true_or, or_true] <;> first | trivial | omega

/-- Left-edge (non-corner) cell of a square board. -/
theorem square_case_left (w i r' : Nat) (hw : 2 ≤ w) (hi : i < w * w)
    (hdiv : i / w = r' + 1) (hr : r' + 1 ≤ w - 2) (hmod : i % w = 0) :
    ∃ ns : List Nat, fetchIndexList (w : Int) (i : Int) = ns.map (Nat.cast : Nat → Int) ∧
      List.Perm ns (neighborIndices w w i) ∧ ns.length = 5 := by
  obtain ⟨v, rfl⟩ : ∃ v, w = v + 2 := ⟨w - 2, by omega⟩
  have hb1 : (r' + 1) * (v + 2) = r' * (v + 2) + (v + 2) := by ring
  have hb2 : (r' + 2) * (v + 2) = r' * (v + 2) + 2 * (v + 2) := by ring
  have hi_enc : i = (r' + 1) * (v + 2) + 0 := (eq_enc_iff (by omega)).2 ⟨hdiv, hmod⟩
  refine ⟨[r' * (v + 2) + 0, r' * (v + 2) + 1, (r' + 1) * (v + 2) + 1,
    (r' + 2) * (v + 2) + 0, (r' + 2) * (v + 2) + 1], ?_, ?_, rfl⟩
  · unfold fetchIndexList
    rw [if_neg (by rw [cond_eq_zero]; omega),
      if_neg (by rw [cond_eq_w_sub_one (by omega)]; omega),
      if_neg (fun h => by have := div_mod_of_bl (by omega) ((cond_eq_bl (by omega)).1 h); omega),
      if_neg (fun h => by have := div_mod_of_br (by omega) ((cond_eq_br (by omega)).1 h); omega),
      if_neg (by rw [cond_lt_w]; intro h; have := Nat.div_eq_of_lt h; omega),
      if_pos (cond_mod_zero.2 hmod)]
    simp only [List.map_cons, List.map_nil, List.cons.injEq, and_true]
    refine ⟨by omega, by omega, by omega, by omega, by omega⟩
  · refine List.perm_of_nodup_nodup_toFinset_eq ?_ (neighborIndices_nodup _ _ _) ?_
    · simp only [List.nodup_cons, List.mem_cons, List.not_mem_nil, or_false, not_or,
        List.nodup_nil, and_true, not_false_eq_true]
      refine ⟨⟨?_, ?_, ?_, ?_⟩, ⟨?_, ?_, ?_⟩, ⟨?_, ?_⟩, ?_⟩ <;> omega
    · ext x
      simp only [List.mem_toFinset, List.mem_cons, List.not_mem_nil, or_false]
      constructor
      · rintro (rfl | rfl | rfl | rfl | rfl) <;>
          exact nbr_forward (by omega) (by omega) (by omega) hdiv hmod
            (by omega) (by omega) (by omega) (by omega) (by omega)
      · intro hx
        obtain ⟨jr, jc, hxe, hjc, hjr, hne, b1, b2, b3, b4⟩ :=
          nbr_backward (by omega) hdiv hmod hx
        have hjr3 : jr = r' ∨ jr = r' + 1 ∨ jr = r' + 2 := by omega
        have hjc2 : jc = 0 ∨ jc = 1 := by omega
        rcases hjr3 with rfl | rfl | rfl <;> rcases hjc2 with rfl | rfl <;>
          simp only [hxe, true_or, or_true] <;> first | trivial | omega

/-- Right-edge (non-corner) cell of a square board. -/
theorem square_case_right (w i r' : Nat) (hw : 2 ≤ w) (hi : i < w * w)
    (hdiv : i / w = r' + 1) (hr : r' + 1 ≤ w - 2) (hmod : i % w = w - 1) :
    ∃ ns : List Nat, fetchIndexList (w : Int) (i : Int) = ns.map (Nat.cast : Nat → Int) ∧
      List.Perm ns (neighborIndices w w i) ∧ ns.length = 5 := by
  obtain ⟨v, rfl⟩ : ∃ v, w = v + 2 := ⟨w - 2, by omega⟩
  have hmod' : i % (v + 2) = v + 1 := by omega
  have hb1 : (r' + 1) * (v + 2) = r' * (v + 2) + (v + 2) := by ring
  have hb2 : (r' + 2) * (v + 2) = r' * (v + 2) + 2 * (v + 2) := by ring
  have hi_enc : i = (r' + 1) * (v + 2) + (v + 1) := (eq_enc_iff (by omega)).2 ⟨hdiv, hmod'⟩
  refine ⟨[r' * (v + 2) + (v + 1), r' * (v + 2) + v, (r' + 1) * (v + 2) + v,
    (r' + 2) * (v + 2) + (v + 1), (r' + 2) * (v + 2) + v], ?_, ?_, rfl⟩
  · unfold fetchIndexList
    rw [if_neg (by rw [cond_eq_zero]; omega),
      if_neg (by rw [cond_eq_w_sub_one (by omega)]; omega),
      if_neg (fun h => by have := div_mod_of_bl (by omega) ((cond_eq_bl (by omega)).1 h); omega),
      if_neg (fun h => by have := div_mod_of_br (by omega) ((cond_eq_br (by omega)).1 h); omega),
      if_neg (by rw [cond_lt_w]; intro h; have := Nat.div_eq_of_lt h; omega),
      if_neg (by rw [cond_mod_zero]; omega),
      if_pos ((cond_mod_w_sub_one (by omega)).2 hmod)]
    simp only [List.map_cons, List.map_nil, List.cons.injEq, and_true]
    refine ⟨by omega, by omega, by omega, by omega, by omega⟩
  · refine List.perm_of_nodup_nodup_toFinset_eq ?_ (neighborIndices_nodup _ _ _) ?_
    · simp only [List.nodup_cons, List.mem_cons, List.not_mem_nil, or_false, not_or,
        List.nodup_nil, and_true, not_false_eq_true]
      refine ⟨⟨?_, ?_, ?_, ?_⟩, ⟨?_, ?_, ?_⟩, ⟨?_, ?_⟩, ?_⟩ <;> omega
    · ext x
      simp only [List.mem_toFinset, List.mem_cons, List.not_mem_nil, or_false]
      constructor
      · rintro (rfl | rfl | rfl | rfl | rfl) <;>
          exact nbr_forward (by omega) (by omega) (by omega) hdiv hmod'
            (by omega) (by omega) (by omega) (by omega) (by omega)
      · intro hx
        obtain ⟨jr, jc, hxe, hjc, hjr, hne, b1, b2, b3, b4⟩ :=
          nbr_backward (by omega) hdiv hmod' hx
        have hjr3 : jr = r' ∨ jr = r' + 1 ∨ jr = r' + 2 := by omega
        have hjc2 : jc = v ∨ jc = v + 1 := by omega
        rcases hjr3 with rfl | rfl | rfl <;> rcases hjc2 with rfl | rfl <;>
          simp only [hxe, true_or, or_true] <;> first | trivial | omega

/-- Bottom-edge (non-corner) cell of a square board. -/
theorem square_case_bottom (w i c' : Nat) (hw : 2 ≤ w) (hi : i < w * w)
    (hdiv : i / w = w - 1) (hmod : i % w = c' + 1) (hc : c' + 1 ≤ w - 2) :
    ∃ ns : List Nat, fetchIndexList (w : Int) (i : Int) = ns.map (Nat.cast : Nat → Int) ∧
      List.Perm ns (neighborIndices w w i) ∧ ns.length = 5 := by
  obtain ⟨v, rfl⟩ : ∃ v, w = v + 2 := ⟨w - 2, by omega⟩
  have hdiv' : i / (v + 2) = v + 1 := by omega
  have hbd : (v + 1) * (v + 2) = v * (v + 2) + (v + 2) := by ring
  have hswap : (v + 2) * (v + 2 - 1) = (v + 1) * (v + 2) := by
    have h21 : v + 2 - 1 = v + 1 := by omega
    rw [h21]; ring
  have hi_enc : i = (v + 1) * (v + 2) + (c' + 1) := (eq_enc_iff (by omega)).2 ⟨hdiv', hmod⟩
  refine ⟨[(v + 1) * (v + 2) + c', (v + 1) * (v + 2) + (c' + 2), v * (v + 2) + (c' + 1),
    v * (v + 2) + c', v * (v + 2) + (c' + 2)], ?_, ?_, rfl⟩
  · unfold fetchIndexList
    rw [if_neg (by rw [cond_eq_zero]; omega),
      if_neg (by rw [cond_eq_w_sub_one (by omega)]; omega),
      if_neg (fun h => by have := div_mod_of_bl (by omega) ((cond_eq_bl (by omega)).1 h); omega),
      if_neg (fun h => by have := div_mod_of_br (by omega) ((cond_eq_br (by omega)).1 h); omega),
      if_neg (by rw [cond_lt_w]; intro h; have := Nat.div_eq_of_lt h; omega),
      if_neg (by rw [cond_mod_zero]; omega),
      if_neg (by rw [cond_mod_w_sub_one (by omega)]; omega),
      if_pos ((cond_gt_bl (by omega)).2 (by omega))]
    simp only [List.map_cons, List.map_nil, List.cons.injEq, and_true]
    refine ⟨by omega, by omega, by omega, by omega, by omega⟩
  · refine List.perm_of_nodup_nodup_toFinset_eq ?_ (neighborIndices_nodup _ _ _) ?_
    · simp only [List.nodup_cons, List.mem_cons, List.not_mem_nil, or_false, not_or,
        List.nodup_nil, and_true, not_false_eq_true]
      refine ⟨⟨?_, ?_, ?_, ?_⟩, ⟨?_, ?_, ?_⟩, ⟨?_, ?_⟩, ?_⟩ <;> omega
    · ext x
      simp only [List.mem_toFinset, List.mem_cons, List.not_mem_nil, or_false]
      constructor
      · rintro (rfl | rfl | rfl | rfl | rfl) <;>
          exact nbr_forward (by omega) (by omega) (by omega) hdiv' hmod
            (by omega) (by omega) (by omega) (by omega) (by omega)
      · intro hx
        obtain ⟨jr, jc, hxe, hjc, hjr, hne, b1, b2, b3, b4⟩ :=
          nbr_backward (by omega) hdiv' hmod hx
        have hjr2 : jr = v ∨ jr = v + 1 := by omega
        have hjc3 : jc = c' ∨ jc = c' + 1 ∨ jc = c' + 2 := by omega
        rcases hjr2 with rfl | rfl <;> rcases hjc3 with rfl | rfl | rfl <;>
          simp only [hxe, true_or, or_true] <;> first | trivial | omega

/-- Interior cell of a square board: the `else` branch of `countAdjacent`'s
classification produces exactly the 8 topological neighbours. -/
theorem square_case_interior (w i r' c' : Nat) (hw : 2 ≤ w) (hi : i < w * w)
    (hdiv : i / w = r' + 1) (hr : r' + 1 ≤ w - 2)
    (hmod : i % w = c' + 1) (hc : c' + 1 ≤ w - 2) :
    ∃ ns : List Nat, fetchIndexList (w : Int) (i : Int) = ns.map (Nat.cast : Nat → Int) ∧
      List.Perm ns (neighborIndices w w i) ∧ ns.length = 8 := by
  obtain ⟨v, rfl⟩ : ∃ v, w = v + 2 := ⟨w - 2, by omega⟩
  have hb1 : (r' + 1) * (v + 2) = r' * (v + 2) + (v + 2) := by ring
  have hb2 : (r' + 2) * (v + 2) = r' * (v + 2) + 2 * (v + 2) := by ring
  have hi_enc : i = (r' + 1) * (v + 2) + (c' + 1) :=
    (eq_enc_iff (by omega)).2 ⟨hdiv, hmod⟩
  refine ⟨[(r' + 1) * (v + 2) + c', (r' + 1) * (v + 2) + (c' + 2),
    r' * (v + 2) + (c' + 1), (r' + 2) * (v + 2) + (c' + 1),
    r' * (v + 2) + c', r' * (v + 2) + (c' + 2),
    (r' + 2) * (v + 2) + c', (r' + 2) * (v + 2) + (c' + 2)], ?_, ?_, rfl⟩
  · unfold fetchIndexList
    rw [if_neg (by rw [cond_eq_zero]; omega),
      if_neg (by rw [cond_eq_w_sub_one (by omega)]; omega),
      if_neg (fun h => by have := div_mod_of_bl (by omega) ((cond_eq_bl (by omega)).1 h); omega),
      if_neg (fun h => by have := div_mod_of_br (by omega) ((cond_eq_br (by omega)).1 h); omega),
      if_neg (by rw [cond_lt_w]; intro h; have := Nat.div_eq_of_lt h; omega),
      if_neg (by rw [cond_mod_zero]; omega),
      if_neg (by rw [cond_mod_w_sub_one (by omega)]; omega),
      if_neg (fun h => by
        have := div_of_gt_bl (by omega) hi ((cond_gt_bl (by omega)).1 h); omega)]
    simp only [List.map_cons, List.map_nil, List.cons.injEq, and_true]
    refine ⟨by omega, by omega, by omega, by omega, by omega, by omega, by omega, by omega⟩
  · refine List.perm_of_nodup_nodup_toFinset_eq ?_ (neighborIndices_nodup _ _ _) ?_
    · simp only [List.nodup_cons, List.mem_cons, List.not_mem_nil, or_false, not_or,
        List.nodup_nil, and_true, not_false_eq_true]
      refine ⟨⟨?_, ?_, ?_, ?_, ?_, ?_, ?_⟩, ⟨?_, ?_, ?_, ?_, ?_, ?_⟩,
        ⟨?_, ?_, ?_, ?_, ?_⟩, ⟨?_, ?_, ?_, ?_⟩, ⟨?_, ?_, ?_⟩, ⟨?_, ?_⟩, ?_⟩ <;> omega
    · ext x
      simp only [List.mem_toFinset, List.mem_cons, List.not_mem_nil, or_false]
      constructor
      · rintro (rfl | rfl | rfl | rfl | rfl | rfl | rfl | rfl) <;>
          exact nbr_forward (by omega) (by omega) (by omega) hdiv hmod
            (by omega) (by omega) (by omega) (by omega) (by omega)
      · intro hx
        obtain ⟨jr, jc, hxe, hjc, hjr, hne, b1, b2, b3, b4⟩ :=
          nbr_backward (by omega) hdiv hmod hx
        have hjr3 : jr = r' ∨ jr = r' + 1 ∨ jr = r' + 2 := by omega
        have hjc3 : jc = c' ∨ jc = c' + 1 ∨ jc = c' + 2 := by omega
        rcases hjr3 with rfl | rfl | rfl <;> rcases hjc3 with rfl | rfl | rfl <;>
          simp only [hxe, true_or, or_true] <;> first | trivial | omega

/-- On a square board every index falls into one of the nine classes, and
in each the classified candidate list is a permutation of the true
topological neighbours. -/
theorem fetch_square_perm (w i : Nat) (hw : 2 ≤ w) (hi : i < w * w) :
    ∃ ns : List Nat, fetchIndexList (w : Int) (i : Int) = ns.map (Nat.cast : Nat → Int) ∧
      List.Perm ns (neighborIndices w w i) := by
  have hdl : i / w < w := div_lt_of_lt_sq (by omega) hi
  have hml : i % w < w := Nat.mod_lt _ (by omega)
  by_cases hd0 : i / w = 0
  · by_cases hm0 : i % w = 0
    · obtain ⟨ns, ha, hb, -⟩ := square_case_tl w i hw hi hd0 hm0
      exact ⟨ns, ha, hb⟩
    by_cases hm1 : i % w = w - 1
    · obtain ⟨ns, ha, hb, -⟩ := square_case_tr w i hw hi hd0 hm1
      exact ⟨ns, ha, hb⟩
    · obtain ⟨c1, hc1⟩ := Nat.exists_eq_succ_of_ne_zero hm0
      have hcle : c1 + 1 ≤ w - 2 := by rw [hc1] at hml hm1; omega
      obtain ⟨ns, ha, hb, -⟩ := square_case_top w i c1 hw hi hd0 hc1 hcle
      exact ⟨ns, ha, hb⟩
  by_cases hd1 : i / w = w - 1
  · by_cases hm0 : i % w = 0
    · obtain ⟨ns, ha, hb, -⟩ := square_case_bl w i hw hi hd1 hm0
      exact ⟨ns, ha, hb⟩
    by_cases hm1 : i % w = w - 1
    · obtain ⟨ns, ha, hb, -⟩ := square_case_br w i hw hi hd1 hm1
      exact ⟨ns, ha, hb⟩
    · obtain ⟨c1, hc1⟩ := Nat.exists_eq_succ_of_ne_zero hm0
      have hcle : c1 + 1 ≤ w - 2 := by rw [hc1] at hml hm1; omega
      obtain ⟨ns, ha, hb, -⟩ := square_case_bottom w i c1 hw hi hd1 hc1 hcle
      exact ⟨ns, ha, hb⟩
  · obtain ⟨r1, hr1⟩ := Nat.exists_eq_succ_of_ne_zero hd0
    have hrle : r1 + 1 ≤ w - 2 := by rw [hr1] at hdl hd1; omega
    by_cases hm0 : i % w = 0
    · obtain ⟨ns, ha, hb, -⟩ := square_case_left w i r1 hw hi hr1 hrle hm0
      exact ⟨ns, ha, hb⟩
    by_cases hm1 : i % w = w - 1
    · obtain ⟨ns, ha, hb, -⟩ := square_case_right w i r1 hw hi hr1 hrle hm1
      exact ⟨ns, ha, hb⟩
    · obtain ⟨c1, hc1⟩ := Nat.exists_eq_succ_of_ne_zero hm0
      have hcle : c1 + 1 ≤ w - 2 := by rw [hc1] at hml hm1; omega
      obtain ⟨ns, ha, hb, -⟩ := square_case_interior w i r1 c1 hw hi hr1 hrle hc1 hcle
      exact ⟨ns, ha, hb⟩

/-- `countAdjacent` on a square board returns the brute-force count of
mines among the topological neighbours. -/
theorem countAdjacent_square (cb : List Bool) (w i : Nat) (hw : 2 ≤ w)
    (hlen : cb.length = w * w) (hi : i < w * w) :
    countAdjacent cb (w : Int) (i : Int) = .ok (bruteAdjacent cb w w i) := by
  obtain ⟨ns, hfetch, hperm⟩ := fetch_square_perm w i hw hi
  have hns_lt : ∀ x ∈ ns, x < w * w := by
    intro x hx
    have := (mem_neighborIndices.1 (hperm.mem_iff.1 hx)).1
    exact this
  have hns_nd : ns.Nodup := hperm.nodup_iff.2 (neighborIndices_nodup _ _ _)
  have hmap_nd : (ns.map (Nat.cast : Nat → Int)).Nodup :=
    hns_nd.map Nat.cast_injective
  simp only [countAdjacent]
  rw [if_neg (by rw [hlen]; omega),
    if_neg (by
      rw [hlen, ← Int.natCast_mod, Nat.mul_mod_left]
      simp),
    hfetch,
    if_neg (by
      rw [Bool.not_eq_true, List.any_eq_false]
      intro x hx
      obtain ⟨n, -, rfl⟩ := List.mem_map.1 hx
      simp),
    if_neg (by
      rw [Bool.not_eq_true, List.any_eq_false]
      intro x hx
      obtain ⟨n, hn, rfl⟩ := List.mem_map.1 hx
      have := hns_lt n hn
      rw [hlen]
      simp only [decide_eq_true_eq, not_le]
      omega),
    if_neg (by rw [hmap_nd.dedup]; simp)]
  congr 1
  rw [(List.mergeSort_perm (ns.map (Nat.cast : Nat → Int)) _).countP_eq,
    List.countP_map]
  rw [hperm.countP_eq]
  unfold bruteAdjacent
  apply List.countP_congr
  intro x hx
  simp [Function.comp, Int.toNat_natCast]

/-! ## Non-square boards always fail -/

/-- With `width = 1` the top-left candidate list `[1, 1, 2]` is rejected
(out of bounds, or duplicated) for every bitmap. -/
theorem countAdjacent_w1_not_ok (cb : List Bool) (h1 : 1 ≤ cb.length) :
    ∀ k, countAdjacent cb 1 0 ≠ .ok k := by
  intro k hk
  have hfe : fetchIndexList 1 0 = [1, 1, 2] := by decide
  simp only [countAdjacent, hfe] at hk
  rw [if_neg (by omega), if_neg (by simp [Int.emod_one]),
    if_neg (by decide)] at hk
  by_cases hlen2 : cb.length ≤ 2
  · rw [if_pos (by
      simp only [List.any_eq_true]
      exact ⟨2, by norm_num, by simp; omega⟩)] at hk
    cases hk
  · rw [if_neg (by
      rw [Bool.not_eq_true, List.any_eq_false]
      intro x hx
      simp only [List.mem_cons, List.not_mem_nil, or_false] at hx
      rcases hx with rfl | rfl | rfl <;> simp <;> omega)] at hk
    rw [if_pos (by decide)] at hk
    cases hk

/-- With `height = 1` (one row, `width ≥ 2`) the top-left candidate list
`[1, w, w+1]` is rejected as out of bounds for every bitmap. -/
theorem countAdjacent_h1_not_ok (cb : List Bool) (w : Nat) (hw : 2 ≤ w)
    (hlen : cb.length = w) : ∀ k, countAdjacent cb (w : Int) 0 ≠ .ok k := by
  intro k hk
  have hfe : fetchIndexList (w : Int) 0 = [1, (w : Int), (w : Int) + 1] := by
    unfold fetchIndexList
    rw [if_pos rfl]
  simp only [countAdjacent, hfe] at hk
  rw [if_neg (by rw [hlen]; omega),
    if_neg (by rw [hlen]; simp [Int.emod_self]),
    if_neg (by
      rw [Bool.not_eq_true, List.any_eq_false]
      intro x hx
      simp only [List.mem_cons, List.not_mem_nil, or_false] at hx
      rcases hx with rfl | rfl | rfl <;> simp <;> omega),
    if_pos (by
      simp only [List.any_eq_true]
      exact ⟨(w : Int), by simp, by rw [hlen]; simp⟩)] at hk
  cases hk

/-- On a `w × h` board with `2 ≤ w`, `2 ≤ h` and `h ≠ w`, the true
bottom-left cell `w*(h-1)` is classified as a left edge and its candidate
`i + w + 1` is out of bounds, for every bitmap. -/
theorem countAdjacent_nonsquare_not_ok (cb : List Bool) (w h : Nat)
    (hw : 2 ≤ w) (hh : 2 ≤ h) (hne : h ≠ w) (hlen : cb.length = w * h) :
    ∀ k, countAdjacent cb (w : Int) ((w * (h - 1) : Nat) : Int) ≠ .ok k := by
  obtain ⟨u, rfl⟩ : ∃ u, h = u + 2 := ⟨h - 2, by omega⟩
  have hA : w * (u + 1) = w * u + w := by ring
  have hB : w * (u + 2) = w * u + 2 * w := by ring
  have hsub : u + 2 - 1 = u + 1 := by omega
  have hmodw : (w * (u + 1)) % w = 0 := Nat.mul_mod_right _ _
  intro k hk
  simp only [countAdjacent, hsub] at hk
  rw [if_neg (by rw [hlen]; omega),
    if_neg (by
      rw [hlen, ← Int.natCast_mod, Nat.mul_mod_right]
      simp)] at hk
  rw [show fetchIndexList (w : Int) ((w * (u + 1) : Nat) : Int) =
      [((w * (u + 1) : Nat) : Int) - (w : Int),
       ((w * (u + 1) : Nat) : Int) - (w : Int) + 1,
       ((w * (u + 1) : Nat) : Int) + 1,
       ((w * (u + 1) : Nat) : Int) + (w : Int),
       ((w * (u + 1) : Nat) : Int) + (w : Int) + 1] from ?_] at hk
  · rw [if_neg (by
      rw [Bool.not_eq_true, List.any_eq_false]
      intro x hx
      simp only [List.mem_cons, List.not_mem_nil, or_false] at hx
      rcases hx with rfl | rfl | rfl | rfl | rfl <;>
        simp only [decide_eq_true_eq, not_lt] <;> omega),
      if_pos (by
        simp only [List.any_eq_true]
        refine ⟨((w * (u + 1) : Nat) : Int) + (w : Int) + 1, by simp, ?_⟩
        rw [hlen]
        simp only [decide_eq_true_eq, ge_iff_le]
        omega)] at hk
    cases hk
  · unfold fetchIndexList
    rw [if_neg (by rw [cond_eq_zero]; omega),
      if_neg (by rw [cond_eq_w_sub_one (by omega)]; omega),
      if_neg (fun hcond => by
        have := (cond_eq_bl (by omega)).1 hcond
        have heq : u + 1 = w - 1 := Nat.eq_of_mul_eq_mul_left (by omega) this
        omega),
      if_neg (fun hcond => by
        have := div_mod_of_br (by omega) ((cond_eq_br (by omega)).1 hcond)
        rw [hmodw] at this
        omega),
      if_neg (by rw [cond_lt_w]; omega),
      if_pos (cond_mod_zero.2 hmodw)]

/-- If `countAdjacent` succeeds at every index of a `w × h` board, the board
is square with `w = h ≥ 2`. -/
theorem board_ok_square (cb : List Bool) (w h : Nat) (hw : 1 ≤ w) (hh : 1 ≤ h)
    (hlen : cb.length = w * h)
    (hok : ∀ i, i < w * h → ∃ k, countAdjacent cb (w : Int) (i : Int) = .ok k) :
    w = h ∧ 2 ≤ w := by
  by_cases hw1 : w = 1
  · subst hw1
    obtain ⟨k, hk⟩ := hok 0 (by omega)
    exact absurd hk (countAdjacent_w1_not_ok cb (by omega) k)
  by_cases hh1 : h = 1
  · subst hh1
    obtain ⟨k, hk⟩ := hok 0 (by nlinarith)
    exact absurd hk (countAdjacent_h1_not_ok cb w (by omega) (by rw [hlen]; ring) k)
  by_cases hhw : h = w
  · exact ⟨hhw.symm, by omega⟩
  · obtain ⟨u, rfl⟩ : ∃ u, h = u + 2 := ⟨h - 2, by omega⟩
    have hA : w * (u + 1) = w * u + w := by ring
    have hB : w * (u + 2) = w * u + 2 * w := by ring
    obtain ⟨k, hk⟩ := hok (w * (u + 2 - 1)) (by
      have hsub : u + 2 - 1 = u + 1 := by omega
      rw [hsub]; omega)
    exact absurd hk
      (countAdjacent_nonsquare_not_ok cb w (u + 2) (by omega) (by omega) hhw hlen k)

/-! ## Board construction: inversion lemmas -/

theorem getD_range {n i : Nat} (hi : i < n) (d : Nat) : (List.range n).getD i d = i := by
  rw [List.getD_eq_getElem _ _ (by simpa using hi)]
  simp

/-- An all-safe bitmap yields adjacency count 0 whenever `countAdjacent`
succeeds. -/
theorem countAdjacent_ok_allfalse {cb : List Bool} {w i : Int} {k : Nat}
    (hall : ∀ b ∈ cb, b = false) (h : countAdjacent cb w i = .ok k) : k = 0 := by
  have hgetD : ∀ n : Nat, cb.getD n false = false := by
    intro n
    rcases Nat.lt_or_ge n cb.length with hlt | hge
    · rw [List.getD_eq_getElem _ _ hlt]
      exact hall _ (List.getElem_mem _)
    · exact List.getD_eq_default _ _ hge
  simp only [countAdjacent] at h
  split_ifs at h
  rw [Except.ok.injEq] at h
  rw [← h, List.countP_eq_zero]
  intro a _
  rw [hgetD a.toNat]
  simp

/-- Inversion for generate mode. -/
theorem mkBoardGen_ok {p : ℚ} {w h : Int} {rand : Nat → ℚ} {b : Board}
    (hok : mkBoardGen p w h rand = .ok b) :
    b.width = w ∧ b.height = h ∧ b.probability = p ∧
    b.boardBits = (List.range (w * h).toNat).map (fun i =>
      if ((List.range (w * h).toNat).map (fun k => decision p (rand k))).getD i false
      then '1' else '0') ∧
    exceptMap (fun (i : Nat) =>
      (countAdjacent ((List.range (w * h).toNat).map (fun k => decision p (rand k)))
        w (Int.ofNat i)).map
        (fun c => Cell.mk
          (((List.range (w * h).toNat).map (fun k => decision p (rand k))).getD i false)
          c false false)) (List.range (w * h).toNat) = .ok b.cells ∧
    encodeKey b.boardBits (w * h).toNat = .ok b.boardKey := by
  simp only [mkBoardGen] at hok
  split at hok
  · cases hok
  · rename_i cells heq1
    split at hok
    · cases hok
    · rename_i key heq2
      cases hok
      exact ⟨rfl, rfl, rfl, rfl, heq1, heq2⟩

/-- Inversion for reconstruct mode. -/
theorem mkBoardReconstruct_ok {p : ℚ} {w h : Int} {key : List Char} {b : Board}
    (hok : mkBoardReconstruct p w h key = .ok b) :
    b.width = w ∧ b.height = h ∧ b.probability = p ∧ b.boardKey = key ∧
    decodeKey key (w * h) = .ok b.boardBits ∧
    exceptMap (fun (i : Nat) =>
      (countAdjacent ((List.range (w * h).toNat).map
          (fun i => b.boardBits.getD i ' ' == '1')) w (Int.ofNat i)).map
        (fun c => Cell.mk (b.boardBits.getD i ' ' == '1') c false false))
      (List.range (w * h).toNat) = .ok b.cells := by
  simp only [mkBoardReconstruct] at hok
  split at hok
  · cases hok
  · rename_i bits heq1
    split at hok
    · cases hok
    · rename_i cells heq2
      cases hok
      exact ⟨rfl, rfl, rfl, rfl, heq1, heq2⟩

/-- Construction for reconstruct mode. -/
theorem mkBoardReconstruct_eq_ok {p : ℚ} {w h : Int} {key bits : List Char}
    {cells : List Cell}
    (hdec : decodeKey key (w * h) = .ok bits)
    (hcells : exceptMap (fun (i : Nat) =>
      (countAdjacent ((List.range (w * h).toNat).map
          (fun i => bits.getD i ' ' == '1')) w (Int.ofNat i)).map
        (fun c => Cell.mk (bits.getD i ' ' == '1') c false false))
      (List.range (w * h).toNat) = .ok cells) :
    mkBoardReconstruct p w h key = .ok ⟨w, h, p, key, bits, cells⟩ := by
  simp only [mkBoardReconstruct, hdec, hcells]

/-! ## Topology counts and further glue -/

/-- On a square board the number of topological neighbours is 3 at the
corners, 5 on non-corner boundary cells and 8 in the interior. -/
theorem neighborCount_class (w i : Nat) (hw : 2 ≤ w) (hi : i < w * w) :
    neighborCount w w i =
      if isCornerIdx w w i then 3 else if isBoundaryIdx w w i then 5 else 8 := by
  have hdl : i / w < w := div_lt_of_lt_sq (by omega) hi
  have hml : i % w < w := Nat.mod_lt _ (by omega)
  have hlen : ∀ {ns : List Nat} {k : Nat}, List.Perm ns (neighborIndices w w i) →
      ns.length = k → neighborCount w w i = k := by
    intro ns k hperm hk
    rw [neighborCount, ← hperm.length_eq, hk]
  by_cases hd0 : i / w = 0
  · by_cases hm0 : i % w = 0
    · obtain ⟨ns, -, hb, hk⟩ := square_case_tl w i hw hi hd0 hm0
      rw [hlen hb hk, if_pos ⟨Or.inl hd0, Or.inl hm0⟩]
    by_cases hm1 : i % w = w - 1
    · obtain ⟨ns, -, hb, hk⟩ := square_case_tr w i hw hi hd0 hm1
      rw [hlen hb hk, if_pos ⟨Or.inl hd0, Or.inr hm1⟩]
    · obtain ⟨c1, hc1⟩ := Nat.exists_eq_succ_of_ne_zero hm0
      have hcle : c1 + 1 ≤ w - 2 := by rw [hc1] at hml hm1; omega
      obtain ⟨ns, -, hb, hk⟩ := square_case_top w i c1 hw hi hd0 hc1 hcle
      rw [hlen hb hk, if_neg (fun hcor => by rcases hcor.2 with h | h <;> omega),
        if_pos (show isBoundaryIdx w w i from Or.inl hd0)]
  by_cases hd1 : i / w = w - 1
  · by_cases hm0 : i % w = 0
    · obtain ⟨ns, -, hb, hk⟩ := square_case_bl w i hw hi hd1 hm0
      rw [hlen hb hk, if_pos ⟨Or.inr hd1, Or.inl hm0⟩]
    by_cases hm1 : i % w = w - 1
    · obtain ⟨ns, -, hb, hk⟩ := square_case_br w i hw hi hd1 hm1
      rw [hlen hb hk, if_pos ⟨Or.inr hd1, Or.inr hm1⟩]
    · obtain ⟨c1, hc1⟩ := Nat.exists_eq_succ_of_ne_zero hm0
      have hcle : c1 + 1 ≤ w - 2 := by rw [hc1] at hml hm1; omega
      obtain ⟨ns, -, hb, hk⟩ := square_case_bottom w i c1 hw hi hd1 hc1 hcle
      rw [hlen hb hk, if_neg (fun hcor => by rcases hcor.2 with h | h <;> omega),
        if_pos (show isBoundaryIdx w w i from Or.inr (Or.inl hd1))]
  · obtain ⟨r1, hr1⟩ := Nat.exists_eq_succ_of_ne_zero hd0
    have hrle : r1 + 1 ≤ w - 2 := by rw [hr1] at hdl hd1; omega
    by_cases hm0 : i % w = 0
    · obtain ⟨ns, -, hb, hk⟩ := square_case_left w i r1 hw hi hr1 hrle hm0
      rw [hlen hb hk, if_neg (fun hcor => by rcases hcor.1 with h | h <;> omega),
        if_pos (show isBoundaryIdx w w i from Or.inr (Or.inr (Or.inl hm0)))]
    by_cases hm1 : i % w = w - 1
    · obtain ⟨ns, -, hb, hk⟩ := square_case_right w i r1 hw hi hr1 hrle hm1
      rw [hlen hb hk, if_neg (fun hcor => by rcases hcor.1 with h | h <;> omega),
        if_pos (show isBoundaryIdx w w i from Or.inr (Or.inr (Or.inr hm1)))]
    · obtain ⟨c1, hc1⟩ := Nat.exists_eq_succ_of_ne_zero hm0
      have hcle : c1 + 1 ≤ w - 2 := by rw [hc1] at hml hm1; omega
      obtain ⟨ns, -, hb, hk⟩ := square_case_interior w i r1 c1 hw hi hr1 hrle hc1 hcle
      rw [hlen hb hk, if_neg (fun hcor => by rcases hcor.1 with h | h <;> omega),
        if_neg (fun hbd => by rcases hbd with h | h | h | h <;> omega)]

/-- All-mine bitmap: the brute-force adjacency count is the neighbour
count. -/
theorem bruteAdjacent_alltrue {cb : List Bool} {w h i : Nat}
    (hall : ∀ b ∈ cb, b = true) (hlen : cb.length = w * h) :
    bruteAdjacent cb w h i = neighborCount w h i := by
  unfold bruteAdjacent neighborCount
  rw [List.countP_eq_length]
  intro j hj
  have hjlt : j < w * h := (mem_neighborIndices.1 hj).1
  rw [List.getD_eq_getElem _ _ (by omega)]
  simp [hall _ (List.getElem_mem _)]

theorem except_map_eq_ok {α β : Type} {x : Except String α} {g : α → β} {y : β}
    (h : x.map g = .ok y) : ∃ a, x = .ok a ∧ y = g a := by
  cases x with
  | error e => simp [Except.map] at h
  | ok a => exact ⟨a, rfl, by simpa [Except.map] using h.symm⟩

theorem toNat_cast_mul (w h : Nat) : (((w : Int)) * ((h : Int))).toNat = w * h := by
  have hcast : ((w : Int)) * ((h : Int)) = ((w * h : Nat) : Int) := by push_cast; ring
  rw [hcast, Int.toNat_natCast]

theorem verifyKey_length_ge (key : List Char) (cellCount : Nat) :
    cellCount / 4 ≤ (verifyKey key cellCount).length := by
  unfold verifyKey
  split
  · rw [List.length_append, List.length_replicate]; omega
  · omega

/-- `"1"`/`"0"` bit strings are `Nat.digitChar` images of `1`/`0`. -/
theorem bits_map_digitChar (g : Nat → Bool) (n : Nat) :
    (List.range n).map (fun i => if g i then '1' else '0') =
      ((List.range n).map (fun i => if g i then 1 else 0)).map Nat.digitChar := by
  rw [List.map_map]
  apply List.map_congr_left
  intro i _
  by_cases hg : g i <;> simp [hg, digitChar_zero, digitChar_one]

/-- Inversion for `encodeKey`. -/
theorem encodeKey_ok {bits key : List Char} {cellCount : Nat}
    (h : encodeKey bits cellCount = .ok key) :
    ∃ v, pyIntParse 2 bits = some v ∧ key = verifyKey (pyHexDrop2 v) cellCount := by
  unfold encodeKey at h
  split at h
  · cases h
  · rename_i v heq
    rw [Except.ok.injEq] at h
    exact ⟨v, heq, h.symm⟩

/-- Parsing a `_verifyKey`-padded hexadecimal rendering recovers the
value. -/
theorem pyIntParse_pyHexKey (V : Nat) (cc : Nat) :
    pyIntParse 16 (verifyKey (pyHexDrop2 (Int.ofNat V)) cc) = some (Int.ofNat V) := by
  have hhex : pyHexDrop2 (Int.ofNat V) =
      (if V = 0 then [0] else (natDigits 16 V).reverse).map Nat.digitChar := by
    unfold pyHexDrop2
    rw [if_pos (by exact Int.natCast_nonneg V)]
    by_cases hv : V = 0
    · subst hv; simp [pyDigits_zero, digitChar_zero]
    · rw [if_neg hv, show (Int.ofNat V).toNat = V from rfl, pyDigits_pos hv]
  have hhex_lt : ∀ d ∈ (if V = 0 then [0] else (natDigits 16 V).reverse), d < 16 := by
    split
    · intro d hd; simp at hd; omega
    · intro d hd; exact natDigits_lt (by omega) V d (List.mem_reverse.1 hd)
  have hhex_ne : (if V = 0 then [0] else (natDigits 16 V).reverse) ≠ [] := by
    split
    · simp
    · rename_i hv
      rw [natDigits_eq_cons (by omega) (by omega)]
      simp
  have hhex_val : digitsVal 16 (if V = 0 then [0] else (natDigits 16 V).reverse) = V := by
    split
    · rename_i hv; subst hv; simp [digitsVal]
    · exact digitsVal_reverse_natDigits (by omega) V
  obtain ⟨kk, hkk⟩ := verifyKey_eq (pyHexDrop2 (Int.ofNat V)) cc
  rw [hkk, hhex, pyIntParse_pad_map_digitChar (by omega) (by omega) kk hhex_lt hhex_ne,
    hhex_val]

/-- Decoding any key that parses to the value of a bit string recovers the
bit string after the length padding. -/
theorem decodeKey_renders (bitsDs : List Nat) (hlt : ∀ d ∈ bitsDs, d < 2)
    (hne : bitsDs ≠ []) (key : List Char)
    (hkeyparse : pyIntParse 16 key = some (Int.ofNat (digitsVal 2 bitsDs))) :
    decodeKey key (bitsDs.length : Int) = .ok (bitsDs.map Nat.digitChar) := by
  have hbin : pyBinDrop2 (Int.ofNat (digitsVal 2 bitsDs)) =
      pyDigits 2 (digitsVal 2 bitsDs) := by
    unfold pyBinDrop2
    rw [if_pos (by exact Int.natCast_nonneg _),
      show (Int.ofNat (digitsVal 2 bitsDs)).toNat = digitsVal 2 bitsDs from rfl]
  obtain ⟨hL, hpad⟩ := pyDigits_digitsVal (by omega : 2 ≤ 2) bitsDs hlt hne
  simp only [decodeKey, hkeyparse, hbin]
  by_cases hLn : (pyDigits 2 (digitsVal 2 bitsDs)).length < bitsDs.length
  · rw [if_pos (by exact_mod_cast hLn),
      show (((bitsDs.length : Int)) -
        ((pyDigits 2 (digitsVal 2 bitsDs)).length : Int)).toNat =
        bitsDs.length - (pyDigits 2 (digitsVal 2 bitsDs)).length by omega,
      hpad]
  · have hEq : (pyDigits 2 (digitsVal 2 bitsDs)).length = bitsDs.length :=
      le_antisymm hL (not_lt.1 hLn)
    rw [if_neg (by exact_mod_cast hLn)]
    rw [hEq, Nat.sub_self, List.replicate_zero, List.nil_append] at hpad
    rw [hpad]

/-- The encode side of `Board._gen` followed by the decode side of
`Board.__init__` recovers the generated bit string exactly. -/
theorem encode_decode_roundtrip {bitsDs : List Nat} (hlt : ∀ d ∈ bitsDs, d < 2)
    (hne : bitsDs ≠ []) {key : List Char}
    (henc : encodeKey (bitsDs.map Nat.digitChar) bitsDs.length = .ok key) :
    decodeKey key (bitsDs.length : Int) = .ok (bitsDs.map Nat.digitChar) := by
  obtain ⟨v, hparse, hkey⟩ := encodeKey_ok henc
  have hparse2 : pyIntParse 2 (bitsDs.map Nat.digitChar) =
      some (Int.ofNat (digitsVal 2 bitsDs)) := by
    have := pyIntParse_pad_map_digitChar (b := 2) (by omega) (by omega) 0 hlt hne
    simpa using this
  rw [hparse2, Option.some_inj] at hparse
  subst hparse
  exact decodeKey_renders bitsDs hlt hne key (hkey ▸ pyIntParse_pyHexKey _ _)

/-! ## Claim theorems -/

theorem nodup_of_dedup_length {l : List Int} (h : l.length = l.dedup.length) :
    l.Nodup := by
  have hs : l.dedup.Sublist l := List.dedup_sublist l
  have : l.dedup = l := hs.eq_of_length h.symm
  rw [← this]
  exact List.nodup_dedup l

/-- C8: `countAdjacent` fails exactly on an out-of-range index, a
non-rectangular bitmap, or a candidate list with a negative, out-of-bounds
or duplicate entry — and otherwise returns a count. -/
theorem claim_C8_countAdjacent_error_iff (cb : List Bool) (w i : Int) :
    (∃ e, countAdjacent cb w i = .error e) ↔
      (i < 0 ∨ i ≥ (cb.length : Int) ∨ (cb.length : Int) % w ≠ 0 ∨
       (∃ x ∈ fetchIndexList w i, x < 0) ∨
       (∃ x ∈ fetchIndexList w i, x ≥ (cb.length : Int)) ∨
       ¬ (fetchIndexList w i).Nodup) := by
  simp only [countAdjacent]
  split_ifs with h1 h2 h3 h4 h5
  · exact ⟨fun _ => by tauto, fun _ => ⟨_, rfl⟩⟩
  · exact ⟨fun _ => by tauto, fun _ => ⟨_, rfl⟩⟩
  · refine ⟨fun _ => ?_, fun _ => ⟨_, rfl⟩⟩
    simp only [List.any_eq_true, decide_eq_true_eq] at h3
    exact Or.inr (Or.inr (Or.inr (Or.inl h3)))
  · refine ⟨fun _ => ?_, fun _ => ⟨_, rfl⟩⟩
    simp only [List.any_eq_true, decide_eq_true_eq] at h4
    exact Or.inr (Or.inr (Or.inr (Or.inr (Or.inl h4))))
  · refine ⟨fun _ => ?_, fun _ => ⟨_, rfl⟩⟩
    refine Or.inr (Or.inr (Or.inr (Or.inr (Or.inr fun hnd => ?_))))
    exact h5 (by rw [hnd.dedup])
  · constructor
    · rintro ⟨e, he⟩; cases he
    · intro hr
      exfalso
      simp only [List.any_eq_true, decide_eq_true_eq] at h3 h4
      rcases hr with h | h | h | h | h | h
      · exact h1 (Or.inl h)
      · exact h1 (Or.inr h)
      · exact h2 h
      · exact h3 h
      · exact h4 h
      · exact h (nodup_of_dedup_length (not_ne_iff.1 h5))

/-- C3: some positive board shapes cannot be constructed at all: a 1×1
generate-mode board and a 3×2 reconstruct-mode board always raise, because
`countAdjacent`'s classification uses `width` alone and its defensive
checks then fire. -/
theorem claim_C3_bad_shapes :
    (∀ (p : ℚ) (rand : Nat → ℚ), ∃ e, mkBoardGen p 1 1 rand = .error e) ∧
    (∀ (p : ℚ) (key : List Char), ∃ e, mkBoardReconstruct p 3 2 key = .error e) := by
  constructor
  · intro p rand
    have hca : countAdjacent [decision p (rand 0)] 1 (Int.ofNat 0) =
        .error "Index out of bounds" := by
      cases decision p (rand 0) <;> rfl
    refine ⟨"Index out of bounds", ?_⟩
    simp only [mkBoardGen, show ((1 : Int) * 1).toNat = 1 from rfl,
      show List.range 1 = [0] from rfl, List.map_cons, List.map_nil]
    rw [exceptMap_cons, hca]
    rfl
  · intro p key
    rcases hp : pyIntParse 16 key with - | v
    · exact ⟨"MalformedKeyError", by simp only [mkBoardReconstruct, decodeKey, hp]⟩
    · have hn : ((3 : Int) * 2).toNat = 6 := rfl
      set bits : List Char :=
        (if ((pyBinDrop2 v).length : Int) < 3 * 2 then
          List.replicate ((3 * 2 - ((pyBinDrop2 v).length : Int)).toNat) '0' ++ pyBinDrop2 v
        else pyBinDrop2 v) with hbits
      have hdec : decodeKey key (3 * 2) = .ok bits := by
        simp only [decodeKey, hp, hbits]
      set cb : List Bool :=
        (List.range 6).map (fun i => bits.getD i ' ' == '1') with hcb
      have hlen : cb.length = 6 := by simp [hcb]
      have hca : countAdjacent cb 3 (Int.ofNat 3) = .error "Index out of bounds" := by
        simp only [countAdjacent, hlen]
        rfl
      have hf3 : (fun (i : Nat) => (countAdjacent cb 3 (Int.ofNat i)).map
          (fun c => Cell.mk (bits.getD i ' ' == '1') c false false)) 3 =
          .error "Index out of bounds" := by
        simp only [hca, Except.map]
      rcases hmap : exceptMap (fun (i : Nat) => (countAdjacent cb 3 (Int.ofNat i)).map
          (fun c => Cell.mk (bits.getD i ' ' == '1') c false false))
          (List.range 6) with e | cells
      · refine ⟨e, ?_⟩
        simp only [mkBoardReconstruct, hdec, hn]
        rw [← hcb, hmap]
      · exact absurd hmap
          (exceptMap_error_of_mem (show 3 ∈ List.range 6 by decide) hf3 cells)

end Minesweeper

namespace Minesweeper

/-- Common core of both construction modes: if the per-cell comprehension
succeeds at every index, the board is square with side at least 2 and each
cell records the supplied mine bit together with the brute-force adjacency
count. -/
theorem cells_core {w h : Int} {cb : List Bool} {g : Nat → Bool} {cells : List Cell}
    (hcb : cb.length = (w * h).toNat)
    (hmap : exceptMap (fun (i : Nat) => (countAdjacent cb w (Int.ofNat i)).map
        (fun c => Cell.mk (g i) c false false)) (List.range (w * h).toNat) = .ok cells) :
    cells.length = (w * h).toNat ∧
    ∀ i, i < (w * h).toNat →
      w.toNat = h.toNat ∧ 2 ≤ w.toNat ∧ w = (w.toNat : Int) ∧ h = (h.toNat : Int) ∧
      cells.getD i default =
        Cell.mk (g i) (bruteAdjacent cb w.toNat h.toNat i) false false := by
  have hlen : cells.length = (w * h).toNat := by
    have := exceptMap_ok_length hmap
    simpa using this
  refine ⟨hlen, ?_⟩
  intro i hi
  have hfk : ∀ k, k < (w * h).toNat →
      (countAdjacent cb w (Int.ofNat k)).map
        (fun c => Cell.mk (g k) c false false) = .ok (cells.getD k default) := by
    intro k hk
    have h2 := exceptMap_ok_getD 0 default hmap k (by simpa using hk)
    rwa [getD_range hk] at h2
  have hex : ∀ k, k < (w * h).toNat →
      ∃ a, countAdjacent cb w (Int.ofNat k) = .ok a ∧
        cells.getD k default = Cell.mk (g k) a false false := by
    intro k hk
    obtain ⟨a, ha, hya⟩ := except_map_eq_ok (hfk k hk)
    exact ⟨a, ha, hya⟩
  have hn1 : 1 ≤ (w * h).toNat := by omega
  obtain ⟨a0, ha0, -⟩ := hex 0 hn1
  have hw0 : 0 ≤ w ∧ w ≠ 0 := by
    have hfe : fetchIndexList w (Int.ofNat 0) = [1, w, w + 1] := by
      unfold fetchIndexList
      rw [if_pos (by decide)]
    simp only [countAdjacent, hfe] at ha0
    split_ifs at ha0 with h1 h2 h3 h4 h5
    constructor
    · rw [Bool.not_eq_true, List.any_eq_false] at h3
      have := h3 w (by simp)
      simp only [decide_eq_true_eq, not_lt] at this
      exact this
    · intro hw
      push_neg at h2
      rw [hw, Int.emod_zero, hcb] at h2
      omega
  have hw1 : 1 ≤ w := by omega
  have hh1 : 1 ≤ h := by
    by_contra hh
    push_neg at hh
    have hmul : w * h ≤ 0 := mul_nonpos_of_nonneg_of_nonpos (by omega) (by omega)
    have := Int.toNat_of_nonpos hmul
    omega
  have hwW : w = (w.toNat : Int) := (Int.toNat_of_nonneg (by omega)).symm
  have hhH : h = (h.toNat : Int) := (Int.toNat_of_nonneg (by omega)).symm
  have hn_eq : (w * h).toNat = w.toNat * h.toNat := by
    conv_lhs => rw [hwW, hhH]
    rw [toNat_cast_mul]
  have hcbWH : cb.length = w.toNat * h.toNat := by rw [hcb, hn_eq]
  have hsq := board_ok_square cb w.toNat h.toNat (by omega) (by omega) hcbWH
    (fun j hj => by
      obtain ⟨a, ha, -⟩ := hex j (by rw [hn_eq]; exact hj)
      rw [hwW] at ha
      exact ⟨a, ha⟩)
  obtain ⟨a, ha, hcell⟩ := hex i hi
  have hi2 : i < w.toNat * w.toNat := by
    rw [hn_eq, ← hsq.1] at hi
    exact hi
  have hca := countAdjacent_square cb w.toNat i hsq.2 (by rw [hcbWH, ← hsq.1]) hi2
  have ha2 : countAdjacent cb ((w.toNat : Int)) ((i : Int)) = .ok a := by
    rw [hwW] at ha
    exact ha
  rw [ha2] at hca
  have haeq : a = bruteAdjacent cb w.toNat w.toNat i := Except.ok.inj hca
  refine ⟨hsq.1, hsq.2, hwW, hhH, ?_⟩
  rw [← hsq.1, hcell, haeq]

/-- When the supplied mine bit agrees with the bitmap, the mine column of
the produced cells is the bitmap itself. -/
theorem cells_map_mine {w h : Int} {cb : List Bool} {g : Nat → Bool} {cells : List Cell}
    (hcb : cb.length = (w * h).toNat)
    (hg : ∀ i, i < (w * h).toNat → g i = cb.getD i false)
    (hmap : exceptMap (fun (i : Nat) => (countAdjacent cb w (Int.ofNat i)).map
        (fun c => Cell.mk (g i) c false false)) (List.range (w * h).toNat) = .ok cells) :
    cells.map Cell.mine = cb := by
  obtain ⟨hlen, hpt⟩ := cells_core hcb hmap
  apply List.ext_getElem (by rw [List.length_map, hlen, hcb])
  intro j hj1 hj2
  have hjn : j < (w * h).toNat := by rwa [List.length_map, hlen] at hj1
  have h5 := (hpt j hjn).2.2.2.2
  rw [List.getD_eq_getElem _ _ (by rw [hlen]; exact hjn)] at h5
  rw [List.getElem_map, h5]
  rw [hg j hjn, List.getD_eq_getElem _ _ hj2]

end Minesweeper

namespace Minesweeper

/-- Construction for generate mode. -/
theorem mkBoardGen_eq_ok {p : ℚ} {w h : Int} {rand : Nat → ℚ} {cells : List Cell}
    {key : List Char}
    (hcells : exceptMap (fun (i : Nat) =>
      (countAdjacent ((List.range (w * h).toNat).map (fun k => decision p (rand k)))
        w (Int.ofNat i)).map
        (fun c => Cell.mk
          (((List.range (w * h).toNat).map (fun k => decision p (rand k))).getD i false)
          c false false)) (List.range (w * h).toNat) = .ok cells)
    (hkey : encodeKey ((List.range (w * h).toNat).map (fun i =>
      if ((List.range (w * h).toNat).map (fun k => decision p (rand k))).getD i false
      then '1' else '0')) (w * h).toNat = .ok key) :
    mkBoardGen p w h rand = .ok ⟨w, h, p, key,
      (List.range (w * h).toNat).map (fun i =>
        if ((List.range (w * h).toNat).map (fun k => decision p (rand k))).getD i false
        then '1' else '0'), cells⟩ := by
  simp only [mkBoardGen, hcells, hkey]

/-- A concrete 2×2 generated board: probability 0 and a constant-zero
random source give the all-safe board with key `"0"`. -/
theorem gen22_ok : mkBoardGen 0 2 2 (fun _ => 0) =
    .ok ⟨2, 2, 0, ['0'], ['0', '0', '0', '0'],
      [⟨false, 0, false, false⟩, ⟨false, 0, false, false⟩,
       ⟨false, 0, false, false⟩, ⟨false, 0, false, false⟩]⟩ := by
  have hparse : pyIntParse 2 ['0', '0', '0', '0'] = some (Int.ofNat 0) := by
    rw [pyIntParse_digits (by norm_num) (by simp) (by decide)]
    rfl
  have hcb : (List.range ((2 * 2 : Int)).toNat).map
      (fun k => decision 0 ((fun _ : Nat => (0 : ℚ)) k)) =
      [false, false, false, false] := by decide
  have hc0 : countAdjacent [false, false, false, false] 2 (Int.ofNat 0) = .ok 0 := by
    simp [countAdjacent, fetchIndexList, List.mergeSort]
  have hc1 : countAdjacent [false, false, false, false] 2 (Int.ofNat 1) = .ok 0 := by
    simp [countAdjacent, fetchIndexList, List.mergeSort]
  have hc2 : countAdjacent [false, false, false, false] 2 (Int.ofNat 2) = .ok 0 := by
    simp [countAdjacent, fetchIndexList, List.mergeSort]
  have hc3 : countAdjacent [false, false, false, false] 2 (Int.ofNat 3) = .ok 0 := by
    simp [countAdjacent, fetchIndexList, List.mergeSort]
  have hbits_eq : (List.range ((2 * 2 : Int)).toNat).map (fun i =>
      if ((List.range ((2 * 2 : Int)).toNat).map
        (fun k => decision 0 ((fun _ : Nat => (0 : ℚ)) k))).getD i false
      then '1' else '0') = ['0', '0', '0', '0'] := by decide
  have hcells : exceptMap (fun (i : Nat) =>
      (countAdjacent ((List.range ((2 * 2 : Int)).toNat).map
          (fun k => decision 0 ((fun _ : Nat => (0 : ℚ)) k))) 2 (Int.ofNat i)).map
        (fun c => Cell.mk
          (((List.range ((2 * 2 : Int)).toNat).map
            (fun k => decision 0 ((fun _ : Nat => (0 : ℚ)) k))).getD i false)
          c false false)) (List.range ((2 * 2 : Int)).toNat) =
      .ok [⟨false, 0, false, false⟩, ⟨false, 0, false, false⟩,
           ⟨false, 0, false, false⟩, ⟨false, 0, false, false⟩] := by
    rw [hcb, show ((2 * 2 : Int)).toNat = 4 from rfl,
      show List.range 4 = [0, 1, 2, 3] from rfl]
    simp only [exceptMap_cons, exceptMap_nil, hc0, hc1, hc2, hc3, Except.map]
    rfl
  have hkey : encodeKey ((List.range ((2 * 2 : Int)).toNat).map (fun i =>
      if ((List.range ((2 * 2 : Int)).toNat).map
        (fun k => decision 0 ((fun _ : Nat => (0 : ℚ)) k))).getD i false
      then '1' else '0')) ((2 * 2 : Int)).toNat = .ok ['0'] := by
    rw [hbits_eq, show ((2 * 2 : Int)).toNat = 4 from rfl]
    simp only [encodeKey, hparse]
    rfl
  have := mkBoardGen_eq_ok hcells hkey
  rw [this, hbits_eq]

end Minesweeper

namespace Minesweeper

/-- C2: on every successfully constructed board, in either mode, each
cell's `adjacentMines` equals the brute-force count of mines among the
up-to-8 in-bounds topological neighbours of its index. -/
theorem claim_C2_adjacency_correct (p : ℚ) (w h : Int) (b : Board)
    (hb : (∃ rand, mkBoardGen p w h rand = .ok b) ∨
          (∃ key, mkBoardReconstruct p w h key = .ok b))
    (i : Nat) (hi : i < (w * h).toNat) :
    (b.cells.getD i default).adjacentMines =
      bruteAdjacent (b.cells.map Cell.mine) w.toNat h.toNat i := by
  rcases hb with ⟨rand, hok⟩ | ⟨key, hok⟩
  · obtain ⟨-, -, -, -, hcells, -⟩ := mkBoardGen_ok hok
    have hcb : ((List.range ((w * h).toNat)).map
        (fun k => decision p (rand k))).length = (w * h).toNat := by simp
    have hmine := cells_map_mine hcb (fun _ _ => rfl) hcells
    obtain ⟨-, hpt⟩ := cells_core hcb hcells
    rw [hmine, (hpt i hi).2.2.2.2]
  · obtain ⟨-, -, -, -, -, hcells⟩ := mkBoardReconstruct_ok hok
    have hcb : ((List.range ((w * h).toNat)).map
        (fun j => b.boardBits.getD j ' ' == '1')).length = (w * h).toNat := by simp
    have hmine := cells_map_mine hcb
      (fun j hj => (getD_map_range (fun j => b.boardBits.getD j ' ' == '1')
        ((w * h).toNat) j hj false).symm) hcells
    obtain ⟨-, hpt⟩ := cells_core hcb hcells
    rw [hmine, (hpt i hi).2.2.2.2]

/-- Witness for C2 on the concrete all-safe 2×2 generated board. -/
theorem claim_C2_adjacency_correct_witness :
    ((Board.mk 2 2 0 ['0'] ['0', '0', '0', '0']
      [⟨false, 0, false, false⟩, ⟨false, 0, false, false⟩,
       ⟨false, 0, false, false⟩, ⟨false, 0, false, false⟩]).cells.getD 0 default).adjacentMines =
      bruteAdjacent ((Board.mk 2 2 0 ['0'] ['0', '0', '0', '0']
        [⟨false, 0, false, false⟩, ⟨false, 0, false, false⟩,
         ⟨false, 0, false, false⟩, ⟨false, 0, false, false⟩]).cells.map Cell.mine)
        (2 : Int).toNat (2 : Int).toNat 0 :=
  claim_C2_adjacency_correct 0 2 2 _ (Or.inl ⟨fun _ => 0, gen22_ok⟩) 0 (by decide)

end Minesweeper

namespace Minesweeper

/-- A concrete 3×3 generated board with a single mine in the last cell:
the bit string is `"000000001"`, whose key `"1"` is padded only up to
`9 // 4 = 2` characters, giving `"01"`. -/
theorem gen33_ok : mkBoardGen (mkRat 1 2) 3 3 (fun k => if k = 8 then 0 else mkRat 1 2) =
    .ok ⟨3, 3, mkRat 1 2, ['0', '1'],
      ['0', '0', '0', '0', '0', '0', '0', '0', '1'],
      [⟨false, 0, false, false⟩, ⟨false, 0, false, false⟩, ⟨false, 0, false, false⟩,
       ⟨false, 0, false, false⟩, ⟨false, 1, false, false⟩, ⟨false, 1, false, false⟩,
       ⟨false, 0, false, false⟩, ⟨false, 1, false, false⟩, ⟨true, 0, false, false⟩]⟩ := by
  have hparse : pyIntParse 2 ['0', '0', '0', '0', '0', '0', '0', '0', '1'] =
      some (Int.ofNat 1) := by
    rw [pyIntParse_digits (by norm_num) (by simp) (by decide)]
    rfl
  have hhex : pyHexDrop2 (Int.ofNat 1) = ['1'] := by
    unfold pyHexDrop2
    rw [if_pos (by norm_num), show (Int.ofNat 1).toNat = 1 from rfl,
      pyDigits_pos (by norm_num),
      natDigits_single (by norm_num) (by norm_num) (by norm_num)]
    rfl
  have hcb : (List.range ((3 * 3 : Int)).toNat).map
      (fun k => decision (mkRat 1 2) ((fun k : Nat => if k = 8 then (0 : ℚ) else mkRat 1 2) k)) =
      [false, false, false, false, false, false, false, false, true] := by decide
  have hc0 : countAdjacent [false, false, false, false, false, false, false, false, true]
      3 (Int.ofNat 0) = .ok 0 := by
    simp [countAdjacent, fetchIndexList, List.mergeSort]
  have hc1 : countAdjacent [false, false, false, false, false, false, false, false, true]
      3 (Int.ofNat 1) = .ok 0 := by
    simp [countAdjacent, fetchIndexList, List.mergeSort]
  have hc2 : countAdjacent [false, false, false, false, false, false, false, false, true]
      3 (Int.ofNat 2) = .ok 0 := by
    simp [countAdjacent, fetchIndexList, List.mergeSort]
  have hc3 : countAdjacent [false, false, false, false, false, false, false, false, true]
      3 (Int.ofNat 3) = .ok 0 := by
    simp [countAdjacent, fetchIndexList, List.mergeSort]
  have hc4 : countAdjacent [false, false, false, false, false, false, false, false, true]
      3 (Int.ofNat 4) = .ok 1 := by
    simp [countAdjacent, fetchIndexList, List.mergeSort]
  have hc5 : countAdjacent [false, false, false, false, false, false, false, false, true]
      3 (Int.ofNat 5) = .ok 1 := by
    simp [countAdjacent, fetchIndexList, List.mergeSort]
  have hc6 : countAdjacent [false, false, false, false, false, false, false, false, true]
      3 (Int.ofNat 6) = .ok 0 := by
    simp [countAdjacent, fetchIndexList, List.mergeSort]
  have hc7 : countAdjacent [false, false, false, false, false, false, false, false, true]
      3 (Int.ofNat 7) = .ok 1 := by
    simp [countAdjacent, fetchIndexList, List.mergeSort]
  have hc8 : countAdjacent [false, false, false, false, false, false, false, false, true]
      3 (Int.ofNat 8) = .ok 0 := by
    simp [countAdjacent, fetchIndexList, List.mergeSort]
  have hbits_eq : (List.range ((3 * 3 : Int)).toNat).map (fun i =>
      if ((List.range ((3 * 3 : Int)).toNat).map
        (fun k => decision (mkRat 1 2) ((fun k : Nat => if k = 8 then (0 : ℚ) else mkRat 1 2) k))).getD i false
      then '1' else '0') = ['0', '0', '0', '0', '0', '0', '0', '0', '1'] := by decide
  have hcells : exceptMap (fun (i : Nat) =>
      (countAdjacent ((List.range ((3 * 3 : Int)).toNat).map
          (fun k => decision (mkRat 1 2) ((fun k : Nat => if k = 8 then (0 : ℚ) else mkRat 1 2) k)))
        3 (Int.ofNat i)).map
        (fun c => Cell.mk
          (((List.range ((3 * 3 : Int)).toNat).map
            (fun k => decision (mkRat 1 2) ((fun k : Nat => if k = 8 then (0 : ℚ) else mkRat 1 2) k))).getD i false)
          c false false)) (List.range ((3 * 3 : Int)).toNat) =
      .ok [⟨false, 0, false, false⟩, ⟨false, 0, false, false⟩, ⟨false, 0, false, false⟩,
           ⟨false, 0, false, false⟩, ⟨false, 1, false, false⟩, ⟨false, 1, false, false⟩,
           ⟨false, 0, false, false⟩, ⟨false, 1, false, false⟩, ⟨true, 0, false, false⟩] := by
    rw [hcb, show ((3 * 3 : Int)).toNat = 9 from rfl,
      show List.range 9 = [0, 1, 2, 3, 4, 5, 6, 7, 8] from rfl]
    simp only [exceptMap_cons, exceptMap_nil, hc0, hc1, hc2, hc3, hc4, hc5, hc6, hc7, hc8,
      Except.map]
    rfl
  have hkey : encodeKey ((List.range ((3 * 3 : Int)).toNat).map (fun i =>
      if ((List.range ((3 * 3 : Int)).toNat).map
        (fun k => decision (mkRat 1 2) ((fun k : Nat => if k = 8 then (0 : ℚ) else mkRat 1 2) k))).getD i false
      then '1' else '0')) ((3 * 3 : Int)).toNat = .ok ['0', '1'] := by
    rw [hbits_eq, show ((3 * 3 : Int)).toNat = 9 from rfl]
    simp only [encodeKey, hparse, hhex]
    rfl
  have := mkBoardGen_eq_ok hcells hkey
  rw [this, hbits_eq]

end Minesweeper

namespace Minesweeper

/-- C4 counterexample: a generated 3×3 board whose bit string is
`"000000001"` gets the key `"01"` of length 2, strictly below
`ceil(9 / 4) = 3`: `_verifyKey` pads only to `cellCount // 4`. -/
theorem claim_C4_counterexample :
    (mkBoardGen (mkRat 1 2) 3 3 (fun k => if k = 8 then 0 else mkRat 1 2)).map
      (fun b => b.boardKey.length) = .ok 2 ∧
    ¬ (((3 * 3 : Int)).toNat + 3) / 4 ≤ 2 := by
  rw [gen33_ok]
  exact ⟨rfl, by decide⟩

/-- C4 (amended): the canonical key of a generated board has length at
least `cellCount // 4` (floor, not ceiling). -/
theorem claim_C4_key_length (p : ℚ) (w h : Int) (rand : Nat → ℚ) (b : Board)
    (hok : mkBoardGen p w h rand = .ok b) :
    (w * h).toNat / 4 ≤ b.boardKey.length := by
  obtain ⟨-, -, -, -, -, henc⟩ := mkBoardGen_ok hok
  obtain ⟨v, -, hkey⟩ := encodeKey_ok henc
  rw [hkey]
  exact verifyKey_length_ge _ _

/-- Witness for the amended C4 on the concrete 2×2 generated board. -/
theorem claim_C4_key_length_witness :
    ((2 * 2 : Int)).toNat / 4 ≤
      (Board.mk 2 2 0 ['0'] ['0', '0', '0', '0']
        [⟨false, 0, false, false⟩, ⟨false, 0, false, false⟩,
         ⟨false, 0, false, false⟩, ⟨false, 0, false, false⟩]).boardKey.length :=
  claim_C4_key_length 0 2 2 (fun _ => 0) _ gen22_ok

end Minesweeper

namespace Minesweeper

/-- Decoding never yields a bit string shorter than `cellCount`: it pads
when short, but keeps longer renderings whole. -/
theorem decodeKey_ok_length {key bits : List Char} {cc : Int}
    (h : decodeKey key cc = .ok bits) : cc.toNat ≤ bits.length := by
  unfold decodeKey at h
  cases hp : pyIntParse 16 key with
  | none => rw [hp] at h; cases h
  | some v =>
    rw [hp, Except.ok.injEq] at h
    subst h
    split
    · rename_i hlt
      rw [List.length_append, List.length_replicate]
      omega
    · rename_i hge
      push_neg at hge
      omega

/-- A concrete 2×2 reconstruction from the overlong key `"ff"`: the bit
string is the unpadded 8-character rendering of 255. -/
theorem recon22ff_ok : mkBoardReconstruct 0 2 2 ['f', 'f'] =
    .ok ⟨2, 2, 0, ['f', 'f'], ['1', '1', '1', '1', '1', '1', '1', '1'],
      [⟨true, 3, false, false⟩, ⟨true, 3, false, false⟩,
       ⟨true, 3, false, false⟩, ⟨true, 3, false, false⟩]⟩ := by
  have hparse : pyIntParse 16 ['f', 'f'] = some (Int.ofNat 255) := by
    rw [pyIntParse_digits (by norm_num) (by simp) (by decide)]
    rfl
  have hbin : pyBinDrop2 (Int.ofNat 255) = ['1', '1', '1', '1', '1', '1', '1', '1'] := by
    have hnd := natDigits_digitsVal (show 2 ≤ 2 by norm_num)
      [1, 1, 1, 1, 1, 1, 1, 1] (by decide) (by decide) (by decide)
    rw [show digitsVal 2 [1, 1, 1, 1, 1, 1, 1, 1] = 255 from rfl] at hnd
    unfold pyBinDrop2
    rw [if_pos (by norm_num), show (Int.ofNat 255).toNat = 255 from rfl,
      pyDigits_pos (by norm_num), hnd]
    rfl
  have hdec : decodeKey ['f', 'f'] (2 * 2) =
      .ok ['1', '1', '1', '1', '1', '1', '1', '1'] := by
    simp only [decodeKey, hparse, hbin]
    norm_num
  have hcb : (List.range ((2 * 2 : Int)).toNat).map
      (fun i => ['1', '1', '1', '1', '1', '1', '1', '1'].getD i ' ' == '1') =
      [true, true, true, true] := by decide
  have hc0 : countAdjacent [true, true, true, true] 2 (Int.ofNat 0) = .ok 3 := by
    simp only [countAdjacent, fetchIndexList]
    norm_num [List.mergeSort, List.dedup, List.pwFilter]
    decide
  have hc1 : countAdjacent [true, true, true, true] 2 (Int.ofNat 1) = .ok 3 := by
    simp only [countAdjacent, fetchIndexList]
    norm_num [List.mergeSort, List.dedup, List.pwFilter]
    decide
  have hc2 : countAdjacent [true, true, true, true] 2 (Int.ofNat 2) = .ok 3 := by
    simp only [countAdjacent, fetchIndexList]
    norm_num [List.mergeSort, List.dedup, List.pwFilter]
    decide
  have hc3 : countAdjacent [true, true, true, true] 2 (Int.ofNat 3) = .ok 3 := by
    simp only [countAdjacent, fetchIndexList]
    norm_num [List.mergeSort, List.dedup, List.pwFilter]
    decide
  have hcells : exceptMap (fun (i : Nat) =>
      (countAdjacent ((List.range ((2 * 2 : Int)).toNat).map
          (fun i => ['1', '1', '1', '1', '1', '1', '1', '1'].getD i ' ' == '1'))
        2 (Int.ofNat i)).map
        (fun c => Cell.mk (['1', '1', '1', '1', '1', '1', '1', '1'].getD i ' ' == '1')
          c false false)) (List.range ((2 * 2 : Int)).toNat) =
      .ok [⟨true, 3, false, false⟩, ⟨true, 3, false, false⟩,
           ⟨true, 3, false, false⟩, ⟨true, 3, false, false⟩] := by
    rw [hcb, show ((2 * 2 : Int)).toNat = 4 from rfl,
      show List.range 4 = [0, 1, 2, 3] from rfl]
    simp only [exceptMap_cons, exceptMap_nil, hc0, hc1, hc2, hc3, Except.map]
    rfl
  exact mkBoardReconstruct_eq_ok hdec hcells

/-- C5 counterexample: reconstructing a 2×2 board from the key `"ff"`
succeeds with a bit string of length 8, not `width*height = 4`. -/
theorem claim_C5_counterexample :
    (mkBoardReconstruct 0 2 2 ['f', 'f']).map (fun b => b.boardBits.length) = .ok 8 ∧
    (8 : Nat) ≠ ((2 * 2 : Int)).toNat := by
  rw [recon22ff_ok]
  exact ⟨rfl, by decide⟩

/-- C5 (amended): a generated board's bit string has length exactly
`width*height`; a reconstructed board's bit string has length at least
`width*height`, with overlong keys kept whole. -/
theorem claim_C5_bits_length (p : ℚ) (w h : Int) (b : Board) :
    (∀ rand, mkBoardGen p w h rand = .ok b → b.boardBits.length = (w * h).toNat) ∧
    (∀ key, mkBoardReconstruct p w h key = .ok b → (w * h).toNat ≤ b.boardBits.length) := by
  constructor
  · intro rand hok
    obtain ⟨-, -, -, hbits, -, -⟩ := mkBoardGen_ok hok
    rw [hbits]
    simp
  · intro key hok
    obtain ⟨-, -, -, -, hdec, -⟩ := mkBoardReconstruct_ok hok
    exact decodeKey_ok_length hdec

/-- Witness for the amended C5 on the two concrete 2×2 boards. -/
theorem claim_C5_bits_length_witness :
    (Board.mk 2 2 0 ['0'] ['0', '0', '0', '0']
      [⟨false, 0, false, false⟩, ⟨false, 0, false, false⟩,
       ⟨false, 0, false, false⟩, ⟨false, 0, false, false⟩]).boardBits.length =
      ((2 * 2 : Int)).toNat ∧
    ((2 * 2 : Int)).toNat ≤
      (Board.mk 2 2 0 ['f', 'f'] ['1', '1', '1', '1', '1', '1', '1', '1']
        [⟨true, 3, false, false⟩, ⟨true, 3, false, false⟩,
         ⟨true, 3, false, false⟩, ⟨true, 3, false, false⟩]).boardBits.length :=
  ⟨(claim_C5_bits_length 0 2 2 _).1 (fun _ => 0) gen22_ok,
   (claim_C5_bits_length 0 2 2 _).2 ['f', 'f'] recon22ff_ok⟩

end Minesweeper

namespace Minesweeper

/-- Decoding the key `"155"` over 9 cells yields the bitmap `"101010101"`. -/
theorem decode155 : decodeKey ['1', '5', '5'] 9 =
    .ok ['1', '0', '1', '0', '1', '0', '1', '0', '1'] := by
  have hparse : pyIntParse 16 ['1', '5', '5'] = some (Int.ofNat 341) := by
    rw [pyIntParse_digits (by norm_num) (by simp) (by decide)]
    rfl
  have hnd := natDigits_digitsVal (show 2 ≤ 2 by norm_num)
    [1, 0, 1, 0, 1, 0, 1, 0, 1] (by decide) (by decide) (by decide)
  rw [show digitsVal 2 [1, 0, 1, 0, 1, 0, 1, 0, 1] = 341 from rfl] at hnd
  have hbin : pyBinDrop2 (Int.ofNat 341) =
      ['1', '0', '1', '0', '1', '0', '1', '0', '1'] := by
    unfold pyBinDrop2
    rw [if_pos (by norm_num), show (Int.ofNat 341).toNat = 341 from rfl,
      pyDigits_pos (by norm_num), hnd]
    rfl
  simp only [decodeKey, hparse, hbin]
  norm_num

/-- Encoding the bitmap `"101010101"` yields the key `"155"`. -/
theorem encode155 : encodeKey ['1', '0', '1', '0', '1', '0', '1', '0', '1'] 9 =
    .ok ['1', '5', '5'] := by
  have hparse : pyIntParse 2 ['1', '0', '1', '0', '1', '0', '1', '0', '1'] =
      some (Int.ofNat 341) := by
    rw [pyIntParse_digits (by norm_num) (by simp) (by decide)]
    rfl
  have hnd := natDigits_digitsVal (show 2 ≤ 16 by norm_num)
    [1, 5, 5] (by decide) (by decide) (by decide)
  rw [show digitsVal 16 [1, 5, 5] = 341 from rfl] at hnd
  have hhex : pyHexDrop2 (Int.ofNat 341) = ['1', '5', '5'] := by
    unfold pyHexDrop2
    rw [if_pos (by norm_num), show (Int.ofNat 341).toNat = 341 from rfl,
      pyDigits_pos (by norm_num), hnd]
    rfl
  simp only [encodeKey, hparse, hhex]
  rfl

/-- The concrete 3×3 reconstruction from the key `"155"`. -/
theorem recon33_155_ok : mkBoardReconstruct 0 3 3 ['1', '5', '5'] =
    .ok ⟨3, 3, 0, ['1', '5', '5'], ['1', '0', '1', '0', '1', '0', '1', '0', '1'],
      [⟨true, 1, false, false⟩, ⟨false, 3, false, false⟩, ⟨true, 1, false, false⟩,
       ⟨false, 3, false, false⟩, ⟨true, 4, false, false⟩, ⟨false, 3, false, false⟩,
       ⟨true, 1, false, false⟩, ⟨false, 3, false, false⟩, ⟨true, 1, false, false⟩]⟩ := by
  have hdec : decodeKey ['1', '5', '5'] (3 * 3) =
      .ok ['1', '0', '1', '0', '1', '0', '1', '0', '1'] := decode155
  have hcb : (List.range ((3 * 3 : Int)).toNat).map
      (fun i => ['1', '0', '1', '0', '1', '0', '1', '0', '1'].getD i ' ' == '1') =
      [true, false, true, false, true, false, true, false, true] := by decide
  have hc0 : countAdjacent [true, false, true, false, true, false, true, false, true]
      3 (Int.ofNat 0) = .ok 1 := by
    simp only [countAdjacent, fetchIndexList]
    norm_num [List.mergeSort, List.dedup, List.pwFilter]
    decide
  have hc1 : countAdjacent [true, false, true, false, true, false, true, false, true]
      3 (Int.ofNat 1) = .ok 3 := by
    simp only [countAdjacent, fetchIndexList]
    norm_num [List.mergeSort, List.dedup, List.pwFilter]
    decide
  have hc2 : countAdjacent [true, false, true, false, true, false, true, false, true]
      3 (Int.ofNat 2) = .ok 1 := by
    simp only [countAdjacent, fetchIndexList]
    norm_num [List.mergeSort, List.dedup, List.pwFilter]
    decide
  have hc3 : countAdjacent [true, false, true, false, true, false, true, false, true]
      3 (Int.ofNat 3) = .ok 3 := by
    simp only [countAdjacent, fetchIndexList]
    norm_num [List.mergeSort, List.dedup, List.pwFilter]
    decide
  have hc4 : countAdjacent [true, false, true, false, true, false, true, false, true]
      3 (Int.ofNat 4) = .ok 4 := by
    simp only [countAdjacent, fetchIndexList]
    norm_num [List.mergeSort, List.dedup, List.pwFilter]
    decide
  have hc5 : countAdjacent [true, false, true, false, true, false, true, false, true]
      3 (Int.ofNat 5) = .ok 3 := by
    simp only [countAdjacent, fetchIndexList]
    norm_num [List.mergeSort, List.dedup, List.pwFilter]
    decide
  have hc6 : countAdjacent [true, false, true, false, true, false, true, false, true]
      3 (Int.ofNat 6) = .ok 1 := by
    simp only [countAdjacent, fetchIndexList]
    norm_num [List.mergeSort, List.dedup, List.pwFilter]
    decide
  have hc7 : countAdjacent [true, false, true, false, true, false, true, false, true]
      3 (Int.ofNat 7) = .ok 3 := by
    simp only [countAdjacent, fetchIndexList]
    norm_num [List.mergeSort, List.dedup, List.pwFilter]
    decide
  have hc8 : countAdjacent [true, false, true, false, true, false, true, false, true]
      3 (Int.ofNat 8) = .ok 1 := by
    simp only [countAdjacent, fetchIndexList]
    norm_num [List.mergeSort, List.dedup, List.pwFilter]
    decide
  have hcells : exceptMap (fun (i : Nat) =>
      (countAdjacent ((List.range ((3 * 3 : Int)).toNat).map
          (fun i => ['1', '0', '1', '0', '1', '0', '1', '0', '1'].getD i ' ' == '1'))
        3 (Int.ofNat i)).map
        (fun c => Cell.mk
          (['1', '0', '1', '0', '1', '0', '1', '0', '1'].getD i ' ' == '1')
          c false false)) (List.range ((3 * 3 : Int)).toNat) =
      .ok [⟨true, 1, false, false⟩, ⟨false, 3, false, false⟩, ⟨true, 1, false, false⟩,
           ⟨false, 3, false, false⟩, ⟨true, 4, false, false⟩, ⟨false, 3, false, false⟩,
           ⟨true, 1, false, false⟩, ⟨false, 3, false, false⟩, ⟨true, 1, false, false⟩] := by
    rw [hcb, show ((3 * 3 : Int)).toNat = 9 from rfl,
      show List.range 9 = [0, 1, 2, 3, 4, 5, 6, 7, 8] from rfl]
    simp only [exceptMap_cons, exceptMap_nil, hc0, hc1, hc2, hc3, hc4, hc5, hc6, hc7, hc8,
      Except.map]
    rfl
  exact mkBoardReconstruct_eq_ok hdec hcells

/-- C6 counterexample: the 3×3 board whose bitmap is `"101010101"`
reports adjacency counts `[1,3,1, 3,4,3, 1,3,1]`, not the claimed
`[2,2,2, 2,4,2, 2,2,2]`. -/
theorem claim_C6_counterexample :
    decodeKey ['1', '5', '5'] 9 = .ok ['1', '0', '1', '0', '1', '0', '1', '0', '1'] ∧
    (mkBoardReconstruct 0 3 3 ['1', '5', '5']).map
      (fun b => b.cells.map Cell.adjacentMines) = .ok [1, 3, 1, 3, 4, 3, 1, 3, 1] ∧
    ([1, 3, 1, 3, 4, 3, 1, 3, 1] : List Nat) ≠ [2, 2, 2, 2, 4, 2, 2, 2, 2] := by
  refine ⟨decode155, ?_, by decide⟩
  rw [recon33_155_ok]
  rfl

/-- C6 (amended): the `"101010101"` bitmap encodes to the key `"155"`,
decodes back to itself, and the 3×3 board built from it reports
adjacency counts `[1,3,1, 3,4,3, 1,3,1]`. -/
theorem claim_C6_scenario :
    encodeKey ['1', '0', '1', '0', '1', '0', '1', '0', '1'] 9 = .ok ['1', '5', '5'] ∧
    decodeKey ['1', '5', '5'] 9 = .ok ['1', '0', '1', '0', '1', '0', '1', '0', '1'] ∧
    (mkBoardReconstruct 0 3 3 ['1', '5', '5']).map
      (fun b => b.cells.map Cell.adjacentMines) = .ok [1, 3, 1, 3, 4, 3, 1, 3, 1] := by
  refine ⟨encode155, decode155, ?_⟩
  rw [recon33_155_ok]
  rfl

end Minesweeper

namespace Minesweeper

/-- C7 counterexample: the empty key contains no character outside the
hexadecimal alphabet, yet decoding it fails with `MalformedKeyError` —
failure is not limited to keys with a non-hex character. -/
theorem claim_C7_counterexample :
    decodeKey [] 9 = .error "MalformedKeyError" ∧
    (∀ c ∈ ([] : List Char), (digitVal? 16 c).isSome) :=
  ⟨rfl, by simp⟩

/-- C7 (amended): `decode("zz", 9)` fails with `MalformedKeyError`;
`MalformedKeyError` is the only decode error; and every nonempty key made
of hexadecimal digits decodes successfully, whatever its length. -/
theorem claim_C7_decode_errors :
    decodeKey ['z', 'z'] 9 = .error "MalformedKeyError" ∧
    (∀ (key : List Char) (cc : Int) (e : String),
      decodeKey key cc = .error e → e = "MalformedKeyError") ∧
    (∀ (key : List Char) (cc : Int), key ≠ [] →
      (∀ c ∈ key, (digitVal? 16 c).isSome) → ∃ bits, decodeKey key cc = .ok bits) := by
  refine ⟨rfl, ?_, ?_⟩
  · intro key cc e h
    unfold decodeKey at h
    cases hp : pyIntParse 16 key with
    | none =>
      rw [hp] at h
      exact (Except.error.inj h).symm
    | some v =>
      rw [hp] at h
      simp at h
  · intro key cc hne hall
    unfold decodeKey
    rw [pyIntParse_digits (by norm_num) hne hall]
    exact ⟨_, rfl⟩

/-- Witness for the amended C7: the two-digit key `"ab"` decodes. -/
theorem claim_C7_decode_errors_witness :
    ∃ bits, decodeKey ['a', 'b'] 7 = .ok bits :=
  claim_C7_decode_errors.2.2 ['a', 'b'] 7 (by decide) (by decide)

/-- C1 counterexample: a 1×1 board in generate mode cannot be constructed
at all, so the round trip fails outright for `width = height = 1`. -/
theorem claim_C1_counterexample :
    mkBoardGen 0 1 1 (fun _ => 0) = .error "Index out of bounds" := rfl

/-- C1 (amended): whenever generation succeeds, reconstructing with the
same width and height and the generated key succeeds and reproduces both
the bit string and the key. -/
theorem claim_C1_roundtrip (p p' : ℚ) (w h : Int) (rand : Nat → ℚ) (b : Board)
    (hok : mkBoardGen p w h rand = .ok b) :
    ∃ b2, mkBoardReconstruct p' w h b.boardKey = .ok b2 ∧
      b2.boardBits = b.boardBits ∧ b2.boardKey = b.boardKey := by
  obtain ⟨-, -, -, hbits, hcells, henc⟩ := mkBoardGen_ok hok
  have hne_n : (w * h).toNat ≠ 0 := by
    intro h0
    rw [hbits, h0, show List.range 0 = ([] : List Nat) from rfl, List.map_nil] at henc
    rw [show encodeKey [] 0 = .error "ValueError" from rfl] at henc
    exact Except.noConfusion henc
  have hbb : b.boardBits =
      ((List.range (w * h).toNat).map (fun i =>
        if ((List.range (w * h).toNat).map (fun k => decision p (rand k))).getD i false
        then 1 else 0)).map Nat.digitChar :=
    hbits.trans (bits_map_digitChar
      (fun i => ((List.range (w * h).toNat).map (fun k => decision p (rand k))).getD i false)
      ((w * h).toNat))
  have hlt : ∀ d ∈ (List.range (w * h).toNat).map (fun i =>
      if ((List.range (w * h).toNat).map (fun k => decision p (rand k))).getD i false
      then 1 else 0), d < 2 := by
    intro d hd
    obtain ⟨i, -, rfl⟩ := List.mem_map.1 hd
    split <;> omega
  have hne : (List.range (w * h).toNat).map (fun i =>
      if ((List.range (w * h).toNat).map (fun k => decision p (rand k))).getD i false
      then 1 else 0) ≠ [] := by
    rw [Ne, List.map_eq_nil_iff, List.range_eq_nil]
    exact hne_n
  have hdslen : ((List.range (w * h).toNat).map (fun i =>
      if ((List.range (w * h).toNat).map (fun k => decision p (rand k))).getD i false
      then 1 else 0)).length = (w * h).toNat := by simp
  have henc2 : encodeKey (((List.range (w * h).toNat).map (fun i =>
      if ((List.range (w * h).toNat).map (fun k => decision p (rand k))).getD i false
      then 1 else 0)).map Nat.digitChar)
      ((List.range (w * h).toNat).map (fun i =>
        if ((List.range (w * h).toNat).map (fun k => decision p (rand k))).getD i false
        then 1 else 0)).length = .ok b.boardKey := by
    rw [hdslen, ← hbb]
    exact henc
  have hdec := encode_decode_roundtrip hlt hne henc2
  have hcast : ((((List.range (w * h).toNat).map (fun i =>
      if ((List.range (w * h).toNat).map (fun k => decision p (rand k))).getD i false
      then 1 else 0)).length : Nat) : Int) = w * h := by
    rw [hdslen]
    omega
  rw [hcast, ← hbb] at hdec
  have hgetD : ∀ i, i < (w * h).toNat →
      (b.boardBits.getD i ' ' == '1') =
        ((List.range (w * h).toNat).map (fun k => decision p (rand k))).getD i false := by
    intro i hi
    rw [hbits, getD_map_range _ _ i hi]
    cases ((List.range (w * h).toNat).map (fun k => decision p (rand k))).getD i false <;>
      rfl
  have hcbr : (List.range (w * h).toNat).map (fun i => b.boardBits.getD i ' ' == '1') =
      (List.range (w * h).toNat).map (fun k => decision p (rand k)) := by
    apply List.map_congr_left
    intro x hx
    rw [hgetD x (List.mem_range.1 hx), getD_map_range _ _ x (List.mem_range.1 hx)]
  have hfun : ∀ x ∈ List.range (w * h).toNat,
      (countAdjacent ((List.range (w * h).toNat).map
          (fun i => b.boardBits.getD i ' ' == '1')) w (Int.ofNat x)).map
        (fun c => Cell.mk (b.boardBits.getD x ' ' == '1') c false false) =
      (countAdjacent ((List.range (w * h).toNat).map
          (fun k => decision p (rand k))) w (Int.ofNat x)).map
        (fun c => Cell.mk
          (((List.range (w * h).toNat).map (fun k => decision p (rand k))).getD x false)
          c false false) := by
    intro x hx
    rw [hcbr, hgetD x (List.mem_range.1 hx)]
  have hcells2 := (exceptMap_congr hfun).trans hcells
  exact ⟨⟨w, h, p', b.boardKey, b.boardBits, b.cells⟩,
    mkBoardReconstruct_eq_ok hdec hcells2, rfl, rfl⟩

/-- Witness for the amended C1 on the concrete 2×2 generated board. -/
theorem claim_C1_roundtrip_witness :
    ∃ b2, mkBoardReconstruct 0 2 2
        (Board.mk 2 2 0 ['0'] ['0', '0', '0', '0']
          [⟨false, 0, false, false⟩, ⟨false, 0, false, false⟩,
           ⟨false, 0, false, false⟩, ⟨false, 0, false, false⟩]).boardKey = .ok b2 ∧
      b2.boardBits = (Board.mk 2 2 0 ['0'] ['0', '0', '0', '0']
          [⟨false, 0, false, false⟩, ⟨false, 0, false, false⟩,
           ⟨false, 0, false, false⟩, ⟨false, 0, false, false⟩]).boardBits ∧
      b2.boardKey = (Board.mk 2 2 0 ['0'] ['0', '0', '0', '0']
          [⟨false, 0, false, false⟩, ⟨false, 0, false, false⟩,
           ⟨false, 0, false, false⟩, ⟨false, 0, false, false⟩]).boardKey :=
  claim_C1_roundtrip 0 0 2 2 (fun _ => 0) _ gen22_ok

end Minesweeper

namespace Minesweeper

/-- A concrete 2×2 generated board: probability 1 and a constant-zero
random source give the all-mine board with key `"f"`. -/
theorem gen22full_ok : mkBoardGen 1 2 2 (fun _ => 0) =
    .ok ⟨2, 2, 1, ['f'], ['1', '1', '1', '1'],
      [⟨true, 3, false, false⟩, ⟨true, 3, false, false⟩,
       ⟨true, 3, false, false⟩, ⟨true, 3, false, false⟩]⟩ := by
  have hparse : pyIntParse 2 ['1', '1', '1', '1'] = some (Int.ofNat 15) := by
    rw [pyIntParse_digits (by norm_num) (by simp) (by decide)]
    rfl
  have hhex : pyHexDrop2 (Int.ofNat 15) = ['f'] := by
    unfold pyHexDrop2
    rw [if_pos (by norm_num), show (Int.ofNat 15).toNat = 15 from rfl,
      pyDigits_pos (by norm_num),
      natDigits_single (by norm_num) (by norm_num) (by norm_num)]
    rfl
  have hcb : (List.range ((2 * 2 : Int)).toNat).map
      (fun k => decision 1 ((fun _ : Nat => (0 : ℚ)) k)) =
      [true, true, true, true] := by decide
  have hc0 : countAdjacent [true, true, true, true] 2 (Int.ofNat 0) = .ok 3 := by
    simp only [countAdjacent, fetchIndexList]
    norm_num [List.mergeSort, List.dedup, List.pwFilter]
    decide
  have hc1 : countAdjacent [true, true, true, true] 2 (Int.ofNat 1) = .ok 3 := by
    simp only [countAdjacent, fetchIndexList]
    norm_num [List.mergeSort, List.dedup, List.pwFilter]
    decide
  have hc2 : countAdjacent [true, true, true, true] 2 (Int.ofNat 2) = .ok 3 := by
    simp only [countAdjacent, fetchIndexList]
    norm_num [List.mergeSort, List.dedup, List.pwFilter]
    decide
  have hc3 : countAdjacent [true, true, true, true] 2 (Int.ofNat 3) = .ok 3 := by
    simp only [countAdjacent, fetchIndexList]
    norm_num [List.mergeSort, List.dedup, List.pwFilter]
    decide
  have hbits_eq : (List.range ((2 * 2 : Int)).toNat).map (fun i =>
      if ((List.range ((2 * 2 : Int)).toNat).map
        (fun k => decision 1 ((fun _ : Nat => (0 : ℚ)) k))).getD i false
      then '1' else '0') = ['1', '1', '1', '1'] := by decide
  have hcells : exceptMap (fun (i : Nat) =>
      (countAdjacent ((List.range ((2 * 2 : Int)).toNat).map
          (fun k => decision 1 ((fun _ : Nat => (0 : ℚ)) k))) 2 (Int.ofNat i)).map
        (fun c => Cell.mk
          (((List.range ((2 * 2 : Int)).toNat).map
            (fun k => decision 1 ((fun _ : Nat => (0 : ℚ)) k))).getD i false)
          c false false)) (List.range ((2 * 2 : Int)).toNat) =
      .ok [⟨true, 3, false, false⟩, ⟨true, 3, false, false⟩,
           ⟨true, 3, false, false⟩, ⟨true, 3, false, false⟩] := by
    rw [hcb, show ((2 * 2 : Int)).toNat = 4 from rfl,
      show List.range 4 = [0, 1, 2, 3] from rfl]
    simp only [exceptMap_cons, exceptMap_nil, hc0, hc1, hc2, hc3, Except.map]
    rfl
  have hkey : encodeKey ((List.range ((2 * 2 : Int)).toNat).map (fun i =>
      if ((List.range ((2 * 2 : Int)).toNat).map
        (fun k => decision 1 ((fun _ : Nat => (0 : ℚ)) k))).getD i false
      then '1' else '0')) ((2 * 2 : Int)).toNat = .ok ['f'] := by
    rw [hbits_eq, show ((2 * 2 : Int)).toNat = 4 from rfl]
    simp only [encodeKey, hparse, hhex]
    rfl
  have := mkBoardGen_eq_ok hcells hkey
  rw [this, hbits_eq]

/-- C9: with probability 0 every generated cell is safe with adjacency 0;
with probability 1 every generated cell is a mine whose adjacency is its
topological neighbour count — 3 at corners, 5 on other boundary cells and
8 in the interior. The random draws lie in `[0, 1)` as Python's
`random()` does. -/
theorem claim_C9_degenerate (w h : Int) (rand : Nat → ℚ) (b : Board) (i : Nat)
    (hrand : ∀ k, 0 ≤ rand k ∧ rand k < 1) (hi : i < (w * h).toNat) :
    (mkBoardGen 0 w h rand = .ok b →
      (b.cells.getD i default).mine = false ∧
      (b.cells.getD i default).adjacentMines = 0) ∧
    (mkBoardGen 1 w h rand = .ok b →
      (b.cells.getD i default).mine = true ∧
      (b.cells.getD i default).adjacentMines = neighborCount w.toNat h.toNat i ∧
      neighborCount w.toNat h.toNat i =
        (if isCornerIdx w.toNat h.toNat i then 3
         else if isBoundaryIdx w.toNat h.toNat i then 5 else 8)) := by
  constructor
  · intro hok
    obtain ⟨-, -, -, -, hcells, -⟩ := mkBoardGen_ok hok
    have hcb : ((List.range ((w * h).toNat)).map
        (fun k => decision 0 (rand k))).length = (w * h).toNat := by simp
    obtain ⟨-, hpt⟩ := cells_core hcb hcells
    have h5 := (hpt i hi).2.2.2.2
    have hgetD : ∀ j : Nat,
        ((List.range ((w * h).toNat)).map (fun k => decision 0 (rand k))).getD j false =
          false := by
      intro j
      rcases Nat.lt_or_ge j ((w * h).toNat) with hj | hj
      · rw [getD_map_range _ _ j hj]
        simp only [decision, decide_eq_false_iff_not, not_lt]
        exact (hrand j).1
      · exact List.getD_eq_default _ _ (by simpa using hj)
    constructor
    · rw [h5]
      exact hgetD i
    · rw [h5]
      show bruteAdjacent _ _ _ _ = 0
      unfold bruteAdjacent
      rw [List.countP_eq_zero]
      intro j _
      rw [hgetD j]
      simp
  · intro hok
    obtain ⟨-, -, -, -, hcells, -⟩ := mkBoardGen_ok hok
    have hcb : ((List.range ((w * h).toNat)).map
        (fun k => decision 1 (rand k))).length = (w * h).toNat := by simp
    obtain ⟨-, hpt⟩ := cells_core hcb hcells
    obtain ⟨hWH, hW2, hwW, hhH, h5⟩ := hpt i hi
    have hall : ∀ x ∈ (List.range ((w * h).toNat)).map (fun k => decision 1 (rand k)),
        x = true := by
      intro x hx
      obtain ⟨k, -, rfl⟩ := List.mem_map.1 hx
      simp only [decision, decide_eq_true_eq]
      exact (hrand k).2
    have hn_eq : (w * h).toNat = w.toNat * h.toNat := by
      conv_lhs => rw [hwW, hhH]
      rw [toNat_cast_mul]
    have hlen : ((List.range ((w * h).toNat)).map
        (fun k => decision 1 (rand k))).length = w.toNat * h.toNat := by
      rw [hcb, hn_eq]
    refine ⟨?_, ?_, ?_⟩
    · rw [h5]
      show ((List.range ((w * h).toNat)).map (fun k => decision 1 (rand k))).getD i false
        = true
      rw [getD_map_range _ _ i hi]
      simp only [decision, decide_eq_true_eq]
      exact (hrand i).2
    · rw [h5]
      show bruteAdjacent _ _ _ _ = _
      exact bruteAdjacent_alltrue hall hlen
    · rw [← hWH]
      exact neighborCount_class w.toNat i hW2 (by rw [hn_eq, ← hWH] at hi; exact hi)

/-- Witness for C9 on the concrete all-mine 2×2 generated board. -/
theorem claim_C9_degenerate_witness :
    ((Board.mk 2 2 1 ['f'] ['1', '1', '1', '1']
      [⟨true, 3, false, false⟩, ⟨true, 3, false, false⟩,
       ⟨true, 3, false, false⟩, ⟨true, 3, false, false⟩]).cells.getD 0 default).mine = true ∧
    ((Board.mk 2 2 1 ['f'] ['1', '1', '1', '1']
      [⟨true, 3, false, false⟩, ⟨true, 3, false, false⟩,
       ⟨true, 3, false, false⟩, ⟨true, 3, false, false⟩]).cells.getD 0 default).adjacentMines =
      neighborCount (2 : Int).toNat (2 : Int).toNat 0 ∧
    neighborCount (2 : Int).toNat (2 : Int).toNat 0 =
      (if isCornerIdx (2 : Int).toNat (2 : Int).toNat 0 then 3
       else if isBoundaryIdx (2 : Int).toNat (2 : Int).toNat 0 then 5 else 8) :=
  (claim_C9_degenerate 2 2 (fun _ => 0) _ 0
    (fun _ => ⟨le_refl 0, by norm_num⟩) (by decide)).2 gen22full_ok

/-- C10: on every successfully constructed board, in either mode, cell `i`
is a mine exactly when character `i` of the bit string is `'1'`. -/
theorem claim_C10_mine_iff_bit (p : ℚ) (w h : Int) (b : Board)
    (hb : (∃ rand, mkBoardGen p w h rand = .ok b) ∨
          (∃ key, mkBoardReconstruct p w h key = .ok b))
    (i : Nat) (hi : i < (w * h).toNat) :
    ((b.cells.getD i default).mine = true ↔ b.boardBits.getD i ' ' = '1') := by
  rcases hb with ⟨rand, hok⟩ | ⟨key, hok⟩
  · obtain ⟨-, -, -, hbits, hcells, -⟩ := mkBoardGen_ok hok
    have hcb : ((List.range ((w * h).toNat)).map
        (fun k => decision p (rand k))).length = (w * h).toNat := by simp
    obtain ⟨-, hpt⟩ := cells_core hcb hcells
    have h5 := (hpt i hi).2.2.2.2
    rw [h5, hbits, getD_map_range _ _ i hi ' ']
    show ((List.range ((w * h).toNat)).map (fun k => decision p (rand k))).getD i false
        = true ↔ _
    cases ((List.range ((w * h).toNat)).map (fun k => decision p (rand k))).getD i false <;>
      simp
  · obtain ⟨-, -, -, -, -, hcells⟩ := mkBoardReconstruct_ok hok
    have hcb : ((List.range ((w * h).toNat)).map
        (fun j => b.boardBits.getD j ' ' == '1')).length = (w * h).toNat := by simp
    obtain ⟨-, hpt⟩ := cells_core hcb hcells
    have h5 := (hpt i hi).2.2.2.2
    rw [h5]
    show (b.boardBits.getD i ' ' == '1') = true ↔ _
    exact beq_iff_eq

/-- Witness for C10 on the concrete all-safe 2×2 generated board. -/
theorem claim_C10_mine_iff_bit_witness :
    ((Board.mk 2 2 0 ['0'] ['0', '0', '0', '0']
      [⟨false, 0, false, false⟩, ⟨false, 0, false, false⟩,
       ⟨false, 0, false, false⟩, ⟨false, 0, false, false⟩]).cells.getD 0 default).mine = true ↔
    (Board.mk 2 2 0 ['0'] ['0', '0', '0', '0']
      [⟨false, 0, false, false⟩, ⟨false, 0, false, false⟩,
       ⟨false, 0, false, false⟩, ⟨false, 0, false, false⟩]).boardBits.getD 0 ' ' = '1' :=
  claim_C10_mine_iff_bit 0 2 2 _ (Or.inl ⟨fun _ => 0, gen22_ok⟩) 0 (by decide)

end Minesweeper
